import Mathlib

/-!
Shallow embedding of the core of `app.py`: the multiway IPF fitter
`iterative_proportional_fitting` and the sampler `sample_from_table`.

Numeric model: Python floats are modelled by exact rationals `ℚ`.
An N-dimensional numpy array of shape `dims` is modelled by its shape
`dims : List Nat` together with its row-major (C-order) flattening
`List ℚ`; the cell with multi-index `(c₀, c₁, …)` sits at flat position
`Σ cᵥ · strideᵥ` where `strideᵥ` is the product of the later dimensions.
`Option` marks executions on which the original lets an exception escape
(`none` = an uncaught error, no value returned).

`target_marginals` together with the axis order `categories` is modelled
by the ordered list `margs : List (List ℚ)` of per-axis target vectors,
exactly the `marginals_arrays` the source builds; `axis_sizes` is then
`margs.map List.length`.
-/

/-- Row-major stride of axis `k` in shape `dims`: the product of the
dimensions after `k`. -/
def strideOf (dims : List Nat) (k : Nat) : Nat := (dims.drop (k + 1)).prod

/-- Component along axis `k` of the multi-index of flat cell `i` (the
axis-`k` coordinate that `np.unravel_index` assigns to `i` in C order). -/
def coordOf (dims : List Nat) (k i : Nat) : Nat :=
  i / strideOf dims k % dims.getD k 0

/-- One entry of the table's current marginal along axis `k`: the sum of
all cells whose axis-`k` coordinate is `c`
(`table.sum(axis=tuple(i for i in range(ndim) if i != k))[c]`). -/
def margEntry (dims : List Nat) (k : Nat) (data : List ℚ) (c : Nat) : ℚ :=
  ∑ i ∈ Finset.range dims.prod, if coordOf dims k i = c then data.getD i 0 else 0

/-- The table's current marginal along axis `k`, one total per category:
`current = table.sum(axis=tuple(i for i in range(table.ndim) if i != axis_idx))`. -/
def margOf (dims : List Nat) (k : Nat) (data : List ℚ) : List ℚ :=
  (List.range (dims.getD k 0)).map (margEntry dims k data)

/-- Per-category scaling ratios:
`ratio = np.where(current == 0, 0, target / current)`. -/
def ratioOf (target current : List ℚ) : List ℚ :=
  List.zipWith (fun t c => if c = 0 then 0 else t / c) target current

/-- Multiply every cell by the ratio of its axis-`k` category
(`table = table * ratio_reshaped`, the 1-D ratio vector broadcast across
all other axes). -/
def scaleAxis (dims : List Nat) (k : Nat) (ratio : List ℚ) (data : List ℚ) :
    List ℚ :=
  (List.range data.length).map fun i => data.getD i 0 * ratio.getD (coordOf dims k i) 0

/-- `np.nanmax(np.abs(ratio - 1.0))`.  No entry of `ratio` is NaN (the
`np.where` already replaced the zero-division slots by 0), so nanmax is an
ordinary maximum; `none` models the `ValueError` numpy raises when the
reduction is over an empty array (an axis with zero categories). -/
def maxAbsDev (ratio : List ℚ) : Option ℚ :=
  (ratio.map fun r => |r - 1|).max?

/-- One `axis_idx` step of a sweep: current marginal, ratios, rescale, and
the step's `np.nanmax(np.abs(ratio - 1.0))` contribution. -/
def axisStep (dims : List Nat) (k : Nat) (target : List ℚ) (data : List ℚ) :
    List ℚ × Option ℚ :=
  let ratio := ratioOf target (margOf dims k data)
  (scaleAxis dims k ratio data, maxAbsDev ratio)

/-- The inner `for axis_idx, ax in enumerate(categories)` loop, threading
the table and the running `max_change` (`k` is the index of the first axis
of `rest`); `none` models the uncaught numpy error on an axis with zero
categories. -/
def sweepAux (dims : List Nat) : Nat → List (List ℚ) → List ℚ → ℚ →
    Option (List ℚ × ℚ)
  | _, [], data, mc => some (data, mc)
  | k, target :: rest, data, mc =>
    let s := axisStep dims k target data
    match s.2 with
    | none => none
    | some d => sweepAux dims (k + 1) rest s.1 (max mc d)

/-- The outer `for it in range(max_iter)` loop with the early
`if max_change < tol: break`.  The second component is the value of the
local variable `max_change` after the last executed sweep (`0` when no
sweep ran at all). -/
def ipfLoop (dims : List Nat) (margs : List (List ℚ)) (tol : ℚ) :
    Nat → List ℚ → ℚ → Option (List ℚ × ℚ)
  | 0, data, mc => some (data, mc)
  | k + 1, data, _ =>
    match sweepAux dims 0 margs data 0 with
    | none => none
    | some (d, mc1) =>
      if mc1 < tol then some (d, mc1) else ipfLoop dims margs tol k d mc1

/-- The shape `axis_sizes = [len(target_marginals[ax]) for ax in categories]`. -/
def dimsOf (margs : List (List ℚ)) : List Nat := margs.map List.length

/-- `iterative_proportional_fitting`, instrumented: runs exactly the
source's loop starting from the uniform table `np.ones(shape)` and returns
the table together with the final value of the local `max_change`. -/
def ipfRun (margs : List (List ℚ)) (max_iter : Nat) (tol : ℚ) :
    Option (List ℚ × ℚ) :=
  ipfLoop (dimsOf margs) margs tol max_iter
    (List.replicate (dimsOf margs).prod 1) 0

/-- `iterative_proportional_fitting(target_marginals, categories, max_iter, tol)`:
returns only the fitted contingency table (flattened row-major), exactly as
the source returns `table` and discards the local `max_change`. -/
def iterative_proportional_fitting (margs : List (List ℚ)) (max_iter : Nat)
    (tol : ℚ) : Option (List ℚ) :=
  (ipfRun margs max_iter tol).map Prod.fst

/-- Multi-index of flat cell `i` (`np.unravel_index(i, shape)`, C order). -/
def unravelIndex (dims : List Nat) (i : Nat) : List Nat :=
  (List.range dims.length).map fun v => coordOf dims v i

/-- Decode one drawn multi-index `t` into a record:
`for i, ax in enumerate(categories_values.keys()): row[ax] = categories_values[ax][t[i]]`.
`j` is the position of the first axis of the remaining list; `none` models a
Python `IndexError` (either `t[i]` with `i` past the multi-index length, or a
label list shorter than the drawn coordinate). -/
def decodeRow : List (String × List String) → Nat → List Nat →
    Option (List (String × String))
  | [], _, _ => some []
  | (ax, labels) :: rest, j, t =>
    match t.get? j with
    | none => none
    | some c =>
      match labels.get? c with
      | none => none
      | some lab =>
        match decodeRow rest (j + 1) t with
        | none => none
        | some rs => some ((ax, lab) :: rs)

/-- Decode every drawn flat index into a record; a single raised
`IndexError` discards the whole output (no partial list is returned). -/
def decodeAll (cvs : List (String × List String)) (dims : List Nat) :
    List Nat → Option (List (List (String × String)))
  | [] => some []
  | d :: ds =>
    match decodeRow cvs 0 (unravelIndex dims d) with
    | none => none
    | some r =>
      match decodeAll cvs dims ds with
      | none => none
      | some rs => some (r :: rs)

/-- `sample_from_table(table, categories_values, n)`.  `draws` models the
stream of flat cell indices produced by the randomness source
(`np.random.choice(len(flat), size=n, replace=True, p=probs)` consumes the
first `n` of them).  `none` marks exactly the executions on which the
original raises: a zero total weight (`probs` is then NaN and
`np.random.choice` rejects it), a negative probability (also rejected by
`np.random.choice`), a drawn index outside the table (`np.unravel_index`
raises), or a label lookup out of range (`IndexError` while decoding). -/
def sample_from_table (dims : List Nat) (table : List ℚ)
    (categories_values : List (String × List String)) (n : Nat)
    (draws : List Nat) : Option (List (List (String × String))) :=
  let flat := table
  let total := flat.sum
  let probs := flat.map fun w => w / total
  if total = 0 then none
  else if probs.any fun p => decide (p < 0) then none
  else
    let idx := draws.take n
    if idx.any fun d => decide (dims.prod ≤ d) then none
    else decodeAll categories_values dims idx

/-- Call-level view of the fitter for the frame property: the pair of the
returned value and the post-call state of the `target_marginals` argument.
Every array the source touches is freshly allocated
(`.astype(float)` copies, `np.ones` allocates, `table * ratio_reshaped`
allocates and rebinds `table`); no statement writes into the argument, so
the post-call argument state is the pre-call one. -/
def fitCall (margs : List (List ℚ)) (max_iter : Nat) (tol : ℚ) :
    Option (List ℚ) × List (List ℚ) :=
  (iterative_proportional_fitting margs max_iter tol, margs)

/-- Call-level view of the sampler for the frame property: result plus the
post-call state of the `table` and `categories_values` arguments.  The
source only reads them (`table.ravel()` is a read-only view, `flat / s`
allocates, decoding only indexes), so the post-call state is the pre-call
one. -/
def sampleCall (dims : List Nat) (table : List ℚ)
    (categories_values : List (String × List String)) (n : Nat)
    (draws : List Nat) :
    Option (List (List (String × String))) × (List ℚ × List (String × List String)) :=
  (sample_from_table dims table categories_values n draws, (table, categories_values))

/-- Value of the outer product of the factor vectors `ss` at flat cell `i`
of shape `dims`. -/
def cellOf : List (List ℚ) → List Nat → Nat → ℚ
  | s :: ss, d :: ds, i =>
    s.getD (coordOf (d :: ds) 0 i) 0 * cellOf ss ds (i % ds.prod)
  | _, _, _ => 1

/-- The dense row-major table whose cells are the outer product of `ss`. -/
def prodData (dims : List Nat) (ss : List (List ℚ)) : List ℚ :=
  (List.range dims.prod).map (cellOf ss dims)

/-- Product of the sums of all factor vectors except the one at `k`. -/
def sumsExcept : List (List ℚ) → Nat → ℚ
  | [], _ => 1
  | _ :: ss, 0 => (ss.map List.sum).prod
  | s :: ss, k + 1 => s.sum * sumsExcept ss k

/-- Replace factor `k` by its pointwise product with `r` (the factored
counterpart of the broadcast multiply along axis `k`). -/
def facMul : List (List ℚ) → Nat → List ℚ → List (List ℚ)
  | [], _, _ => []
  | s :: ss, 0, r => List.zipWith (fun a b => a * b) s r :: ss
  | s :: ss, k + 1, r => s :: facMul ss k r

/-- The uniform factor list whose outer product is `np.ones(shape)`. -/
def uniformFac (margs : List (List ℚ)) : List (List ℚ) :=
  margs.map fun ax => List.replicate ax.length (1:ℚ)

/-- Invariant carried through the first sweep of the fitter, when the
first `v` axes have been processed: the factors of the processed axes
reproduce their target marginals, the factors of the axes still to come
are untouched (uniform), and once at least one axis was processed the
grand total of the table equals the common marginal total `T`. -/
def ipfInv (margs : List (List ℚ)) (T : ℚ) (v : Nat) (ss : List (List ℚ)) : Prop :=
  ss.length = margs.length
  ∧ (∀ w, (ss.getD w []).length = (margs.getD w []).length)
  ∧ (∀ w, v ≤ w → ss.getD w [] = List.replicate (margs.getD w []).length 1)
  ∧ (∀ w, w < v → ∀ c, (ss.getD w []).getD c 0 * sumsExcept ss w = (margs.getD w []).getD c 0)
  ∧ (0 < v → (ss.map List.sum).prod = T)

/-! ### Generic list and flat-index helpers -/

lemma getD_range_map {α : Type} (f : Nat → α) {n i : Nat} (d : α) (h : i < n) :
    ((List.range n).map f).getD i d = f i := by
  rw [List.getD_eq_getElem?_getD, List.getElem?_map, List.getElem?_range h]
  rfl

lemma getD_nonneg {l : List ℚ} (h : ∀ x ∈ l, 0 ≤ x) (i : Nat) : 0 ≤ l.getD i 0 := by
  rw [List.getD_eq_getElem?_getD]
  rcases lt_or_ge i l.length with hi | hi
  · rw [List.getElem?_eq_getElem hi]
    exact h _ (List.getElem_mem hi)
  · rw [List.getElem?_eq_none hi]
    exact le_rfl

lemma getD_eq_zero_of_all_zero {l : List ℚ} (h : ∀ x ∈ l, x = 0) (i : Nat) :
    l.getD i 0 = 0 := by
  rw [List.getD_eq_getElem?_getD]
  rcases lt_or_ge i l.length with hi | hi
  · rw [List.getElem?_eq_getElem hi]
    exact h _ (List.getElem_mem hi)
  · rw [List.getElem?_eq_none hi]
    rfl

lemma sum_getD_range (l : List ℚ) :
    ∑ i ∈ Finset.range l.length, l.getD i 0 = l.sum := by
  induction l with
  | nil => simp
  | cons x xs ih =>
    rw [List.length_cons, Finset.sum_range_succ', List.sum_cons]
    simp only [List.getD_cons_succ, List.getD_cons_zero, ih]
    ring

lemma zipWith_getD (f : ℚ → ℚ → ℚ) (xs ys : List ℚ) {i : Nat}
    (hx : i < xs.length) (hy : i < ys.length) :
    (List.zipWith f xs ys).getD i 0 = f (xs.getD i 0) (ys.getD i 0) := by
  rw [List.getD_eq_getElem?_getD, List.getElem?_zipWith,
    List.getElem?_eq_getElem hx, List.getElem?_eq_getElem hy,
    List.getD_eq_getElem?_getD, List.getD_eq_getElem?_getD,
    List.getElem?_eq_getElem hx, List.getElem?_eq_getElem hy]
  rfl

lemma getD_replicate {α : Type} (a d : α) {n i : Nat} (h : i < n) :
    (List.replicate n a).getD i d = a := by
  rw [List.getD_eq_getElem?_getD, List.getElem?_replicate, if_pos h]
  rfl

lemma range_map_getD_self (l : List ℚ) :
    (List.range l.length).map (fun i => l.getD i 0) = l := by
  apply List.ext_get (by simp)
  intro n h1 h2
  simp only [List.get_eq_getElem, List.getElem_map, List.getElem_range]
  rw [List.getD_eq_getElem?_getD, List.getElem?_eq_getElem h2]
  rfl

lemma all_zero_of_sum_zero {l : List ℚ} (hnn : ∀ x ∈ l, 0 ≤ x) (hs : l.sum = 0) :
    ∀ x ∈ l, x = 0 := by
  induction l with
  | nil => intro x hx; cases hx
  | cons a xs ih =>
    rw [List.sum_cons] at hs
    have ha : 0 ≤ a := hnn a (List.mem_cons_self _ _)
    have hxs : 0 ≤ xs.sum := List.sum_nonneg fun x hx => hnn x (List.mem_cons_of_mem _ hx)
    have ha0 : a = 0 := le_antisymm (by linarith) ha
    intro x hx
    rcases List.mem_cons.mp hx with rfl | hx
    · exact ha0
    · exact ih (fun y hy => hnn y (List.mem_cons_of_mem _ hy)) (by linarith) x hx

lemma sum_range_mul (f : Nat → ℚ) (d ρ : Nat) :
    ∑ i ∈ Finset.range (d * ρ), f i
      = ∑ a ∈ Finset.range d, ∑ b ∈ Finset.range ρ, f (a * ρ + b) := by
  induction d with
  | zero => simp
  | succ d ih =>
    rw [Nat.succ_mul, Finset.sum_range_add, ih, Finset.sum_range_succ]

lemma dims_getD_pos {dims : List Nat} (h : 0 < dims.prod) {k : Nat}
    (hk : k < dims.length) : 0 < dims.getD k 0 := by
  rw [List.getD_eq_getElem?_getD, List.getElem?_eq_getElem hk]
  show 0 < dims[k]
  rcases Nat.eq_zero_or_pos dims[k] with h0 | hpos
  · exfalso
    have hmem : (0 : Nat) ∈ dims := h0 ▸ List.getElem_mem hk
    rw [List.prod_eq_zero hmem] at h
    exact lt_irrefl 0 h
  · exact hpos

lemma strideOf_cons_succ (d : Nat) (ds : List Nat) (k : Nat) :
    strideOf (d :: ds) (k + 1) = strideOf ds k := rfl

lemma strideOf_cons_zero (d : Nat) (ds : List Nat) :
    strideOf (d :: ds) 0 = ds.prod := rfl

lemma coordOf_cons_zero {d ρ : Nat} (ds : List Nat) {a b : Nat} (hρ : ds.prod = ρ)
    (ha : a < d) (hb : b < ρ) :
    coordOf (d :: ds) 0 (a * ρ + b) = a := by
  have hρpos : 0 < ρ := lt_of_le_of_lt (Nat.zero_le b) hb
  unfold coordOf
  rw [strideOf_cons_zero, hρ]
  have : (a * ρ + b) / ρ = a := by
    rw [Nat.add_comm, Nat.add_mul_div_right _ _ hρpos, Nat.div_eq_of_lt hb, Nat.zero_add]
  rw [this]
  exact Nat.mod_eq_of_lt ha

lemma prod_decomp (ds : List Nat) (k : Nat) (hk : k < ds.length) :
    ds.prod = (ds.take k).prod * (ds.getD k 0 * strideOf ds k) := by
  have h1 : ds.drop k = ds.getD k 0 :: ds.drop (k + 1) := by
    rw [List.getD_eq_getElem?_getD, List.getElem?_eq_getElem hk]
    exact List.drop_eq_getElem_cons hk
  calc ds.prod = (ds.take k).prod * (ds.drop k).prod := by
        rw [List.prod_take_mul_prod_drop]
    _ = (ds.take k).prod * (ds.getD k 0 * strideOf ds k) := by
        rw [h1, List.prod_cons]; rfl

lemma coordOf_cons_succ (d : Nat) (ds : List Nat) (k i : Nat) (hk : k < ds.length) :
    coordOf (d :: ds) (k + 1) i = coordOf ds k (i % ds.prod) := by
  show i / strideOf (d :: ds) (k + 1) % (d :: ds).getD (k + 1) 0
      = i % ds.prod / strideOf ds k % ds.getD k 0
  rw [strideOf_cons_succ]
  have hgd : (d :: ds).getD (k + 1) 0 = ds.getD k 0 := rfl
  rw [hgd]
  rcases Nat.eq_zero_or_pos (strideOf ds k) with hs | hs
  · rw [hs, Nat.div_zero, Nat.div_zero]
  rcases Nat.eq_zero_or_pos (ds.getD k 0) with hn | hn
  · have hz : ds.prod = 0 := by
      rw [prod_decomp ds k hk, hn]; ring
    rw [hz, Nat.mod_zero]
  · have hdecomp := prod_decomp ds k hk
    set m := (ds.take k).prod with hm
    set n := ds.getD k 0 with hn'
    set s := strideOf ds k with hs'
    conv_lhs => rw [← Nat.div_add_mod i ds.prod]
    rw [hdecomp]
    have h1 : m * (n * s) * (i / (m * (n * s))) + i % (m * (n * s))
        = i % (m * (n * s)) + (m * n * (i / (m * (n * s)))) * s := by ring
    rw [h1, Nat.add_mul_div_right _ _ hs]
    have h2 : i % (m * (n * s)) / s + m * n * (i / (m * (n * s)))
        = i % (m * (n * s)) / s + (m * (i / (m * (n * s)))) * n := by ring
    rw [h2, Nat.add_mul_mod_self_right]

lemma mod_decomp_left {a b ρ : Nat} (hb : b < ρ) :
    (a * ρ + b) % ρ = b := by
  rw [Nat.add_comm, Nat.add_mul_mod_self_right]
  exact Nat.mod_eq_of_lt hb

/-! ### Product-form tables

A table arising from the uniform start by per-axis broadcast multiplies is
an outer product of one factor vector per axis; `cellOf` evaluates that
outer product at one flat cell, `prodData` lists all the cells.  This
representation carries the sweep-1 analysis of the fitter. -/

lemma length_prodData (dims : List Nat) (ss : List (List ℚ)) :
    (prodData dims ss).length = dims.prod := by simp [prodData]

lemma prodData_getD (dims : List Nat) (ss : List (List ℚ)) {i : Nat}
    (h : i < dims.prod) : (prodData dims ss).getD i 0 = cellOf ss dims i :=
  getD_range_map _ _ h

lemma cellOf_cons_decomp {d ρ : Nat} (s : List ℚ) (ss : List (List ℚ))
    (ds : List Nat) (hρ : ds.prod = ρ) {a b : Nat} (ha : a < d) (hb : b < ρ) :
    cellOf (s :: ss) (d :: ds) (a * ρ + b) = s.getD a 0 * cellOf ss ds b := by
  show s.getD (coordOf (d :: ds) 0 (a * ρ + b)) 0 * cellOf ss ds ((a * ρ + b) % ds.prod)
      = s.getD a 0 * cellOf ss ds b
  rw [coordOf_cons_zero ds hρ ha hb, hρ, mod_decomp_left hb]

lemma tail_sums_prod_zero {ss : List (List ℚ)} {ds : List Nat}
    (hl : ss.length = ds.length) (hax : ∀ w, (ss.getD w []).length = ds.getD w 0)
    (hz : ds.prod = 0) : (ss.map List.sum).prod = 0 := by
  induction ss generalizing ds with
  | nil =>
    cases ds with
    | nil => simp at hz
    | cons d ds => simp at hl
  | cons s ss ih =>
    cases ds with
    | nil => simp at hl
    | cons d ds =>
      rw [List.prod_cons] at hz
      rcases Nat.mul_eq_zero.mp hz with hd | hds
      · have hs : s.length = 0 := by
          have := hax 0
          simpa [hd] using this
        have : s = [] := List.eq_nil_of_length_eq_zero hs
        simp [this]
      · rw [List.map_cons, List.prod_cons,
          ih (by simpa using hl) (fun w => hax (w + 1)) hds, mul_zero]

lemma total_cellOf {ss : List (List ℚ)} {ds : List Nat}
    (hl : ss.length = ds.length) (hax : ∀ w, (ss.getD w []).length = ds.getD w 0) :
    ∑ i ∈ Finset.range ds.prod, cellOf ss ds i = (ss.map List.sum).prod := by
  induction ss generalizing ds with
  | nil =>
    cases ds with
    | nil => simp [cellOf]
    | cons d ds => simp at hl
  | cons s ss ih =>
    cases ds with
    | nil => simp at hl
    | cons d ds =>
      rcases Nat.eq_zero_or_pos ds.prod with hρ | hρ
      · have h0 : (d :: ds).prod = 0 := by rw [List.prod_cons, hρ, mul_zero]
        rw [h0, Finset.range_zero, Finset.sum_empty, List.map_cons, List.prod_cons,
          tail_sums_prod_zero (by simpa using hl) (fun w => hax (w + 1)) hρ, mul_zero]
      · rw [List.prod_cons, sum_range_mul]
        have hstep : ∀ a ∈ Finset.range d,
            ∑ b ∈ Finset.range ds.prod, cellOf (s :: ss) (d :: ds) (a * ds.prod + b)
              = s.getD a 0 * (ss.map List.sum).prod := by
          intro a ha
          rw [Finset.mem_range] at ha
          calc ∑ b ∈ Finset.range ds.prod, cellOf (s :: ss) (d :: ds) (a * ds.prod + b)
              = ∑ b ∈ Finset.range ds.prod, s.getD a 0 * cellOf ss ds b := by
                apply Finset.sum_congr rfl
                intro b hb
                rw [Finset.mem_range] at hb
                exact cellOf_cons_decomp s ss ds rfl ha hb
            _ = s.getD a 0 * ∑ b ∈ Finset.range ds.prod, cellOf ss ds b := by
                rw [Finset.mul_sum]
            _ = s.getD a 0 * (ss.map List.sum).prod := by
                rw [ih (by simpa using hl) (fun w => hax (w + 1))]
        rw [Finset.sum_congr rfl hstep, ← Finset.sum_mul]
        have hd : d = s.length := by
          have := hax 0
          simpa using this.symm
        rw [List.map_cons, List.prod_cons]
        congr 1
        rw [hd, sum_getD_range]

lemma sumsExcept_pos_zero {ss : List (List ℚ)} {ds : List Nat}
    (hl : ss.length = ds.length) (hax : ∀ w, (ss.getD w []).length = ds.getD w 0)
    {k : Nat} (hz : ds.prod = 0) (hk : k < ds.length) (hd : ds.getD k 0 ≠ 0) :
    sumsExcept ss k = 0 := by
  induction ss generalizing ds k with
  | nil =>
    cases ds with
    | nil => simp at hk
    | cons d ds => simp at hl
  | cons s ss ih =>
    cases ds with
    | nil => simp at hl
    | cons d ds =>
      rw [List.prod_cons] at hz
      cases k with
      | zero =>
        have hd0 : d ≠ 0 := hd
        have hds : ds.prod = 0 := by
          rcases Nat.mul_eq_zero.mp hz with h | h
          · exact absurd h hd0
          · exact h
        show (ss.map List.sum).prod = 0
        exact tail_sums_prod_zero (by simpa using hl) (fun w => hax (w + 1)) hds
      | succ k =>
        rcases Nat.mul_eq_zero.mp hz with h | h
        · have hs : s.length = 0 := by
            have := hax 0
            simpa [h] using this
          have : s = [] := List.eq_nil_of_length_eq_zero hs
          show s.sum * sumsExcept ss k = 0
          simp [this]
        · show s.sum * sumsExcept ss k = 0
          rw [ih (by simpa using hl) (fun w => hax (w + 1)) h
            (by simpa using Nat.lt_of_succ_lt_succ hk) hd, mul_zero]

lemma margEntry_prodData {ss : List (List ℚ)} {ds : List Nat}
    (hl : ss.length = ds.length) (hax : ∀ w, (ss.getD w []).length = ds.getD w 0) :
    ∀ k c, k < ds.length → c < ds.getD k 0 →
      margEntry ds k (prodData ds ss) c = (ss.getD k []).getD c 0 * sumsExcept ss k := by
  induction ss generalizing ds with
  | nil =>
    intro k c hk _
    cases ds with
    | nil => simp at hk
    | cons d ds => simp at hl
  | cons s ss ih =>
    intro k c hk hc
    cases ds with
    | nil => simp at hl
    | cons d ds =>
      have hdata : ∀ i, i < (d :: ds).prod →
          (prodData (d :: ds) (s :: ss)).getD i 0 = cellOf (s :: ss) (d :: ds) i :=
        fun i hi => prodData_getD _ _ hi
      have hsum0 : margEntry (d :: ds) k (prodData (d :: ds) (s :: ss)) c
          = ∑ i ∈ Finset.range (d * ds.prod),
              if coordOf (d :: ds) k i = c then cellOf (s :: ss) (d :: ds) i else 0 := by
        unfold margEntry
        rw [List.prod_cons]
        apply Finset.sum_congr rfl
        intro i hi
        rw [Finset.mem_range] at hi
        rw [hdata i (by rw [List.prod_cons]; exact hi)]
      rw [hsum0, sum_range_mul]
      rcases Nat.eq_zero_or_pos ds.prod with hρ | hρ
      · -- a zero later dimension: both sides vanish
        have hlhs : ∑ a ∈ Finset.range d, ∑ b ∈ Finset.range ds.prod,
            (if coordOf (d :: ds) k (a * ds.prod + b) = c
              then cellOf (s :: ss) (d :: ds) (a * ds.prod + b) else 0) = 0 := by
          rw [hρ]
          simp
        rw [hlhs]
        cases k with
        | zero =>
          have : sumsExcept (s :: ss) 0 = 0 := by
            show (ss.map List.sum).prod = 0
            exact tail_sums_prod_zero (by simpa using hl) (fun w => hax (w + 1)) hρ
          rw [this, mul_zero]
        | succ k =>
          have hd : ds.getD k 0 ≠ 0 := by
            have : c < ds.getD k 0 := hc
            omega
          have : sumsExcept (s :: ss) (k + 1) = 0 := by
            show s.sum * sumsExcept ss k = 0
            rw [sumsExcept_pos_zero (by simpa using hl) (fun w => hax (w + 1)) hρ
              (by simpa using Nat.lt_of_succ_lt_succ hk) hd, mul_zero]
          rw [this, mul_zero]
      · cases k with
        | zero =>
          -- head axis: the inner index is free, the outer one is pinned to c
          have hstep : ∀ a ∈ Finset.range d, ∑ b ∈ Finset.range ds.prod,
              (if coordOf (d :: ds) 0 (a * ds.prod + b) = c
                then cellOf (s :: ss) (d :: ds) (a * ds.prod + b) else 0)
              = if a = c then s.getD a 0 * ∑ b ∈ Finset.range ds.prod, cellOf ss ds b
                else 0 := by
            intro a ha
            rw [Finset.mem_range] at ha
            have hcoord : ∀ b ∈ Finset.range ds.prod,
                (if coordOf (d :: ds) 0 (a * ds.prod + b) = c
                  then cellOf (s :: ss) (d :: ds) (a * ds.prod + b) else 0)
                = if a = c then s.getD a 0 * cellOf ss ds b else 0 := by
              intro b hb
              rw [Finset.mem_range] at hb
              rw [coordOf_cons_zero ds rfl ha hb, cellOf_cons_decomp s ss ds rfl ha hb]
            rw [Finset.sum_congr rfl hcoord]
            by_cases hac : a = c
            · simp only [if_pos hac, Finset.mul_sum]
            · simp only [if_neg hac, Finset.sum_const_zero]
          rw [Finset.sum_congr rfl hstep, Finset.sum_ite_eq' (Finset.range d) c]
          have hc' : c < d := hc
          rw [if_pos (Finset.mem_range.mpr hc')]
          show s.getD c 0 * ∑ b ∈ Finset.range ds.prod, cellOf ss ds b
              = (s.getD c 0) * sumsExcept (s :: ss) 0
          rw [total_cellOf (by simpa using hl) (fun w => hax (w + 1))]
          rfl
        | succ k =>
          have hk' : k < ds.length := by simpa using Nat.lt_of_succ_lt_succ hk
          have hstep : ∀ a ∈ Finset.range d, ∑ b ∈ Finset.range ds.prod,
              (if coordOf (d :: ds) (k + 1) (a * ds.prod + b) = c
                then cellOf (s :: ss) (d :: ds) (a * ds.prod + b) else 0)
              = s.getD a 0 * margEntry ds k (prodData ds ss) c := by
            intro a ha
            rw [Finset.mem_range] at ha
            have hterm : ∀ b ∈ Finset.range ds.prod,
                (if coordOf (d :: ds) (k + 1) (a * ds.prod + b) = c
                  then cellOf (s :: ss) (d :: ds) (a * ds.prod + b) else 0)
                = s.getD a 0 * (if coordOf ds k b = c then cellOf ss ds b else 0) := by
              intro b hb
              rw [Finset.mem_range] at hb
              rw [coordOf_cons_succ d ds k _ hk', mod_decomp_left hb,
                cellOf_cons_decomp s ss ds rfl ha hb]
              by_cases hbc : coordOf ds k b = c
              · rw [if_pos hbc, if_pos hbc]
              · rw [if_neg hbc, if_neg hbc, mul_zero]
            rw [Finset.sum_congr rfl hterm, ← Finset.mul_sum]
            congr 1
            unfold margEntry
            apply Finset.sum_congr rfl
            intro b hb
            rw [Finset.mem_range] at hb
            rw [prodData_getD _ _ hb]
          rw [Finset.sum_congr rfl hstep, ← Finset.sum_mul]
          rw [ih (by simpa using hl) (fun w => hax (w + 1)) k c hk' hc]
          have hd : d = s.length := by
            have := hax 0
            simpa using this.symm
          show (∑ a ∈ Finset.range d, s.getD a 0)
                * ((ss.getD k []).getD c 0 * sumsExcept ss k)
              = (ss.getD k []).getD c 0 * (s.sum * sumsExcept ss k)
          rw [hd, sum_getD_range]
          ring

lemma length_facMul (ss : List (List ℚ)) (k : Nat) (r : List ℚ) :
    (facMul ss k r).length = ss.length := by
  induction ss generalizing k with
  | nil => rfl
  | cons s ss ih =>
    cases k with
    | zero => rfl
    | succ k => simpa [facMul] using ih k

lemma facMul_getD_self (ss : List (List ℚ)) (k : Nat) (r : List ℚ)
    (hk : k < ss.length) :
    (facMul ss k r).getD k [] = List.zipWith (fun a b => a * b) (ss.getD k []) r := by
  induction ss generalizing k with
  | nil => simp at hk
  | cons s ss ih =>
    cases k with
    | zero => rfl
    | succ k =>
      show (facMul ss k r).getD k [] = _
      exact ih k (by simpa using Nat.lt_of_succ_lt_succ hk)

lemma facMul_getD_ne (ss : List (List ℚ)) (k : Nat) (r : List ℚ) {w : Nat}
    (hw : w ≠ k) : (facMul ss k r).getD w [] = ss.getD w [] := by
  induction ss generalizing k w with
  | nil => rfl
  | cons s ss ih =>
    cases k with
    | zero =>
      cases w with
      | zero => exact absurd rfl hw
      | succ w => rfl
    | succ k =>
      cases w with
      | zero => rfl
      | succ w =>
        show (facMul ss k r).getD w [] = ss.getD w []
        exact ih k (fun h => hw (by rw [h]))

lemma cellOf_facMul {ss : List (List ℚ)} {ds : List Nat}
    (hl : ss.length = ds.length) (hax : ∀ w, (ss.getD w []).length = ds.getD w 0) :
    ∀ k r i, k < ds.length → r.length = ds.getD k 0 → i < ds.prod →
      cellOf (facMul ss k r) ds i = cellOf ss ds i * r.getD (coordOf ds k i) 0 := by
  induction ss generalizing ds with
  | nil =>
    intro k r i hk _ _
    cases ds with
    | nil => simp at hk
    | cons d ds => simp at hl
  | cons s ss ih =>
    intro k r i hk hr hi
    cases ds with
    | nil => simp at hl
    | cons d ds =>
      rw [List.prod_cons] at hi
      have hρ : 0 < ds.prod := by
        rcases Nat.eq_zero_or_pos ds.prod with h | h
        · rw [h, mul_zero] at hi; exact absurd hi (Nat.not_lt_zero i)
        · exact h
      have hd : 0 < d := by
        rcases Nat.eq_zero_or_pos d with h | h
        · rw [h, zero_mul] at hi; exact absurd hi (Nat.not_lt_zero i)
        · exact h
      cases k with
      | zero =>
        show (List.zipWith (fun a b => a * b) s r).getD (coordOf (d :: ds) 0 i) 0
              * cellOf ss ds (i % ds.prod)
            = s.getD (coordOf (d :: ds) 0 i) 0 * cellOf ss ds (i % ds.prod)
              * r.getD (coordOf (d :: ds) 0 i) 0
        have hcoord : coordOf (d :: ds) 0 i < d := by
          unfold coordOf
          exact Nat.mod_lt _ hd
        have hs : s.length = d := by simpa using hax 0
        rw [zipWith_getD _ s r (by rw [hs]; exact hcoord) (by rw [hr]; exact hcoord)]
        ring
      | succ k =>
        show s.getD (coordOf (d :: ds) 0 i) 0 * cellOf (facMul ss k r) ds (i % ds.prod)
            = s.getD (coordOf (d :: ds) 0 i) 0 * cellOf ss ds (i % ds.prod)
              * r.getD (coordOf (d :: ds) (k + 1) i) 0
        have hk' : k < ds.length := by simpa using Nat.lt_of_succ_lt_succ hk
        rw [ih (by simpa using hl) (fun w => hax (w + 1)) k r (i % ds.prod) hk'
          (by simpa using hr) (Nat.mod_lt _ hρ)]
        rw [coordOf_cons_succ d ds k i hk']
        ring

lemma scaleAxis_prodData {ss : List (List ℚ)} {ds : List Nat}
    (hl : ss.length = ds.length) (hax : ∀ w, (ss.getD w []).length = ds.getD w 0)
    {k : Nat} {r : List ℚ} (hk : k < ds.length) (hr : r.length = ds.getD k 0) :
    scaleAxis ds k r (prodData ds ss) = prodData ds (facMul ss k r) := by
  apply List.ext_get
  · simp [scaleAxis, prodData]
  intro n h1 h2
  have hn : n < ds.prod := by simpa [scaleAxis, prodData] using h1
  simp only [scaleAxis, prodData, List.get_eq_getElem, List.getElem_map,
    List.getElem_range, length_prodData]
  rw [getD_range_map (cellOf ss ds) 0 hn, cellOf_facMul hl hax k r n hk hr hn]

lemma sumsExcept_mul_sum (ss : List (List ℚ)) (k : Nat) (hk : k < ss.length) :
    sumsExcept ss k * (ss.getD k []).sum = (ss.map List.sum).prod := by
  induction ss generalizing k with
  | nil => simp at hk
  | cons s ss ih =>
    cases k with
    | zero =>
      show (ss.map List.sum).prod * s.sum = (s.sum :: ss.map List.sum).prod
      rw [List.prod_cons]
      ring
    | succ k =>
      show s.sum * sumsExcept ss k * (ss.getD k []).sum = (s.sum :: ss.map List.sum).prod
      rw [List.prod_cons, mul_assoc, ih k (by simpa using Nat.lt_of_succ_lt_succ hk)]

lemma sumsExcept_congr {ss1 ss2 : List (List ℚ)}
    (h : ss1.map List.sum = ss2.map List.sum) (k : Nat) :
    sumsExcept ss1 k = sumsExcept ss2 k := by
  induction ss1 generalizing ss2 k with
  | nil =>
    cases ss2 with
    | nil => rfl
    | cons t ts => simp at h
  | cons s ss ih =>
    cases ss2 with
    | nil => simp at h
    | cons t ts =>
      rw [List.map_cons, List.map_cons] at h
      have hh : s.sum = t.sum := (List.cons.injEq _ _ _ _ ▸ h).1
      have ht : ss.map List.sum = ts.map List.sum := (List.cons.injEq _ _ _ _ ▸ h).2
      cases k with
      | zero =>
        show (ss.map List.sum).prod = (ts.map List.sum).prod
        rw [ht]
      | succ k =>
        show s.sum * sumsExcept ss k = t.sum * sumsExcept ts k
        rw [hh, ih ht k]

lemma map_sum_facMul {ss : List (List ℚ)} {k : Nat} {r : List ℚ}
    (hk : k < ss.length)
    (h : (List.zipWith (fun a b => a * b) (ss.getD k []) r).sum = (ss.getD k []).sum) :
    (facMul ss k r).map List.sum = ss.map List.sum := by
  induction ss generalizing k with
  | nil => rfl
  | cons s ss ih =>
    cases k with
    | zero =>
      show (List.zipWith (fun a b => a * b) s r).sum :: ss.map List.sum
          = s.sum :: ss.map List.sum
      rw [show (List.zipWith (fun a b => a * b) s r).sum = s.sum from h]
    | succ k =>
      show s.sum :: (facMul ss k r).map List.sum = s.sum :: ss.map List.sum
      rw [ih (by simpa using Nat.lt_of_succ_lt_succ hk) h]

lemma one_zipWith {r : List ℚ} {n : Nat} (h : r.length = n) :
    List.zipWith (fun a b => a * b) (List.replicate n (1:ℚ)) r = r := by
  induction r generalizing n with
  | nil => cases n <;> rfl
  | cons x xs ih =>
    cases n with
    | zero => simp at h
    | succ n =>
      show (1 : ℚ) * x :: List.zipWith _ (List.replicate n 1) xs = x :: xs
      rw [one_mul, ih (by simpa using h)]

lemma sum_map_div (t : List ℚ) (P : ℚ) :
    (t.map fun x => x / P).sum = t.sum / P := by
  induction t with
  | nil => simp
  | cons x xs ih =>
    rw [List.map_cons, List.sum_cons, List.sum_cons, ih, add_div]

lemma sumsExcept_facMul_self (ss : List (List ℚ)) (k : Nat) (r : List ℚ) :
    sumsExcept (facMul ss k r) k = sumsExcept ss k := by
  induction ss generalizing k with
  | nil => rfl
  | cons s ss ih =>
    cases k with
    | zero => rfl
    | succ k =>
      show s.sum * sumsExcept (facMul ss k r) k = s.sum * sumsExcept ss k
      rw [ih k]

lemma getD_mem_of_lt {α : Type} (l : List α) (d : α) {i : Nat} (h : i < l.length) :
    l.getD i d ∈ l := by
  rw [List.getD_eq_getElem?_getD, List.getElem?_eq_getElem h]
  exact List.getElem_mem h

lemma getD_eq_default_of_le {α : Type} (l : List α) (d : α) {i : Nat}
    (h : l.length ≤ i) : l.getD i d = d := by
  rw [List.getD_eq_getElem?_getD, List.getElem?_eq_none h]
  rfl

lemma list_eq_of_getD {l1 l2 : List ℚ} (hlen : l1.length = l2.length)
    (h : ∀ i, i < l1.length → l1.getD i 0 = l2.getD i 0) : l1 = l2 := by
  apply List.ext_get hlen
  intro i h1 h2
  have hi := h i h1
  rw [List.getD_eq_getElem?_getD, List.getD_eq_getElem?_getD,
    List.getElem?_eq_getElem h1, List.getElem?_eq_getElem h2] at hi
  simpa using hi

lemma dimsOf_length (margs : List (List ℚ)) : (dimsOf margs).length = margs.length := by
  simp [dimsOf]

lemma dimsOf_getD (margs : List (List ℚ)) (w : Nat) :
    (dimsOf margs).getD w 0 = (margs.getD w []).length := by
  rcases lt_or_ge w margs.length with hw | hw
  · rw [List.getD_eq_getElem?_getD, List.getD_eq_getElem?_getD]
    unfold dimsOf
    rw [List.getElem?_map, List.getElem?_eq_getElem hw]
    rfl
  · rw [getD_eq_default_of_le _ _ (by rw [dimsOf_length]; exact hw),
      getD_eq_default_of_le _ _ hw]
    rfl

lemma sum_replicate_one (n : Nat) : (List.replicate n (1:ℚ)).sum = n := by
  rw [List.sum_replicate, nsmul_eq_mul, mul_one]

lemma dims_prod_pos {margs : List (List ℚ)} (hne : ∀ ax ∈ margs, ax ≠ []) :
    0 < (dimsOf margs).prod := by
  apply List.prod_pos
  intro d hd
  unfold dimsOf at hd
  rcases List.mem_map.mp hd with ⟨ax, hax, rfl⟩
  have := hne ax hax
  cases ax with
  | nil => exact absurd rfl this
  | cons x xs => simp

lemma ipfInv_base (margs : List (List ℚ)) (T : ℚ) :
    ipfInv margs T 0 (uniformFac margs) := by
  refine ⟨by simp [uniformFac], ?_, ?_, ?_, ?_⟩
  · intro w
    rcases lt_or_ge w margs.length with hw | hw
    · rw [List.getD_eq_getElem?_getD, List.getD_eq_getElem?_getD]
      unfold uniformFac
      rw [List.getElem?_map, List.getElem?_eq_getElem hw]
      simp
    · rw [getD_eq_default_of_le _ _ (by simpa [uniformFac] using hw),
        getD_eq_default_of_le _ _ hw]
  · intro w _
    rcases lt_or_ge w margs.length with hw | hw
    · rw [List.getD_eq_getElem?_getD, List.getD_eq_getElem?_getD]
      unfold uniformFac
      rw [List.getElem?_map, List.getElem?_eq_getElem hw]
      rfl
    · rw [getD_eq_default_of_le _ _ (by simpa [uniformFac] using hw),
        getD_eq_default_of_le _ _ hw]
      rfl
  · intro w hw
    exact absurd hw (Nat.not_lt_zero w)
  · intro h
    exact absurd h (lt_irrefl 0)

lemma cellOf_uniform :
    ∀ (ds : List Nat) (ss : List (List ℚ)) (i : Nat),
      ss.length = ds.length → (∀ w, (ss.getD w []).length = ds.getD w 0) →
      (∀ w, ss.getD w [] = List.replicate ((ss.getD w []).length) 1) →
      i < ds.prod → cellOf ss ds i = 1 := by
  intro ds
  induction ds with
  | nil =>
    intro ss i hl _ _ _
    cases ss with
    | nil => rfl
    | cons s ss => simp at hl
  | cons d ds ih =>
    intro ss i hl hax hrep hi
    cases ss with
    | nil => simp at hl
    | cons s ss =>
      rw [List.prod_cons] at hi
      have hρ : 0 < ds.prod := by
        rcases Nat.eq_zero_or_pos ds.prod with h | h
        · rw [h, mul_zero] at hi; exact absurd hi (Nat.not_lt_zero i)
        · exact h
      have hd : 0 < d := by
        rcases Nat.eq_zero_or_pos d with h | h
        · rw [h, zero_mul] at hi; exact absurd hi (Nat.not_lt_zero i)
        · exact h
      show s.getD (coordOf (d :: ds) 0 i) 0 * cellOf ss ds (i % ds.prod) = 1
      have hs : s = List.replicate s.length 1 := hrep 0
      have hslen : s.length = d := by simpa using hax 0
      have hcoord : coordOf (d :: ds) 0 i < d := by
        unfold coordOf
        exact Nat.mod_lt _ hd
      have hval : s.getD (coordOf (d :: ds) 0 i) 0 = 1 := by
        conv_lhs => rw [hs]
        exact getD_replicate _ _ (by rw [hslen]; exact hcoord)
      rw [hval, one_mul]
      exact ih ss (i % ds.prod) (by simpa using hl) (fun w => hax (w + 1))
        (fun w => hrep (w + 1)) (Nat.mod_lt _ hρ)

lemma prodData_uniform (margs : List (List ℚ)) :
    prodData (dimsOf margs) (uniformFac margs)
      = List.replicate (dimsOf margs).prod 1 := by
  have hbase := ipfInv_base margs 0
  apply list_eq_of_getD
  · simp [prodData]
  intro i hi
  have hi' : i < (dimsOf margs).prod := by simpa [prodData] using hi
  rw [prodData_getD _ _ hi', getD_replicate _ _ hi']
  apply cellOf_uniform (dimsOf margs) (uniformFac margs) i
  · rw [hbase.1, dimsOf_length]
  · intro w
    rw [hbase.2.1 w, dimsOf_getD]
  · intro w
    rw [hbase.2.2.1 w (Nat.zero_le w)]
    simp
  · exact hi'

lemma getD_map (f : ℚ → ℚ) (l : List ℚ) {i : Nat} (h : i < l.length) :
    (l.map f).getD i 0 = f (l.getD i 0) := by
  rw [List.getD_eq_getElem?_getD, List.getElem?_map, List.getElem?_eq_getElem h,
    List.getD_eq_getElem?_getD, List.getElem?_eq_getElem h]
  rfl

lemma maxAbsDev_ne_nil (l : List ℚ) (h : l ≠ []) : ∃ d, maxAbsDev l = some d := by
  cases l with
  | nil => exact absurd rfl h
  | cons x xs => exact ⟨_, rfl⟩

lemma ipfInv_step (margs : List (List ℚ)) (T : ℚ) (hT : T ≠ 0)
    (hne : ∀ ax ∈ margs, ax ≠ []) (hsum : ∀ ax ∈ margs, ax.sum = T)
    {v : Nat} {ss : List (List ℚ)} (hv : v < margs.length)
    (hinv : ipfInv margs T v ss) :
    ∃ ss2 dev,
      axisStep (dimsOf margs) v (margs.getD v []) (prodData (dimsOf margs) ss)
        = (prodData (dimsOf margs) ss2, some dev)
      ∧ ipfInv margs T (v + 1) ss2 := by
  obtain ⟨hlen, haxlen, huni, hdone, hprod⟩ := hinv
  have hlend : ss.length = (dimsOf margs).length := by rw [hlen, dimsOf_length]
  have haxd : ∀ w, (ss.getD w []).length = (dimsOf margs).getD w 0 := by
    intro w; rw [haxlen w, dimsOf_getD]
  have hvd : v < (dimsOf margs).length := by rw [dimsOf_length]; exact hv
  have hnv : (dimsOf margs).getD v 0 = (margs.getD v []).length := dimsOf_getD margs v
  have ht_mem : margs.getD v [] ∈ margs := getD_mem_of_lt margs [] hv
  have htne : margs.getD v [] ≠ [] := hne _ ht_mem
  have hn_pos : 0 < (margs.getD v []).length := List.length_pos.mpr htne
  have hsv : ss.getD v [] = List.replicate (margs.getD v []).length 1 := huni v le_rfl
  have hssum : (ss.getD v []).sum = ((margs.getD v []).length : ℚ) := by
    rw [hsv, sum_replicate_one]
  have hP : sumsExcept ss v ≠ 0 := by
    rcases Nat.eq_zero_or_pos v with hv0 | hv0
    · subst hv0
      cases ss with
      | nil =>
        exfalso
        simp at hlen
        omega
      | cons s0 sst =>
        show (sst.map List.sum).prod ≠ 0
        apply ne_of_gt
        apply List.prod_pos
        intro x hx
        rcases List.mem_map.mp hx with ⟨s, hs, rfl⟩
        have hs2 : s ∈ s0 :: sst := List.mem_cons_of_mem _ hs
        rcases List.mem_iff_getElem.mp hs2 with ⟨w, hw, hsw⟩
        have hgd : (s0 :: sst).getD w [] = s := by
          rw [List.getD_eq_getElem?_getD, List.getElem?_eq_getElem hw]
          exact hsw
        have hrep := huni w (Nat.zero_le w)
        rw [hgd] at hrep
        have hwlt : w < margs.length := by rw [← hlen]; exact hw
        have hmne := hne _ (getD_mem_of_lt margs [] hwlt)
        have hpos : 0 < (margs.getD w []).length := List.length_pos.mpr hmne
        rw [hrep, sum_replicate_one]
        exact_mod_cast hpos
    · have hmul := sumsExcept_mul_sum ss v (by rw [hlen]; exact hv)
      rw [hprod hv0, hssum] at hmul
      intro h0
      rw [h0, zero_mul] at hmul
      exact hT hmul.symm
  have hcur : ∀ c, c < (margs.getD v []).length →
      (margOf (dimsOf margs) v (prodData (dimsOf margs) ss)).getD c 0
        = sumsExcept ss v := by
    intro c hc
    unfold margOf
    rw [getD_range_map _ _ (by rw [hnv]; exact hc)]
    rw [margEntry_prodData hlend haxd v c hvd (by rw [hnv]; exact hc)]
    rw [hsv, getD_replicate _ _ hc, one_mul]
  have hmlen : (margOf (dimsOf margs) v (prodData (dimsOf margs) ss)).length
      = (margs.getD v []).length := by
    unfold margOf
    rw [List.length_map, List.length_range, hnv]
  have hrlen : (ratioOf (margs.getD v [])
      (margOf (dimsOf margs) v (prodData (dimsOf margs) ss))).length
      = (margs.getD v []).length := by
    rw [ratioOf, List.length_zipWith, hmlen, min_self]
  have hratio : ratioOf (margs.getD v [])
      (margOf (dimsOf margs) v (prodData (dimsOf margs) ss))
      = (margs.getD v []).map (fun x => x / sumsExcept ss v) := by
    apply list_eq_of_getD
    · rw [hrlen, List.length_map]
    intro i hi
    have hi' : i < (margs.getD v []).length := by rw [← hrlen]; exact hi
    unfold ratioOf
    rw [zipWith_getD _ _ _ hi' (by rw [hmlen]; exact hi')]
    rw [hcur i hi', if_neg hP, getD_map _ _ hi']
  have hrmap_len : ((margs.getD v []).map (fun x => x / sumsExcept ss v)).length
      = (margs.getD v []).length := List.length_map _ _
  have hrsum : ((margs.getD v []).map (fun x => x / sumsExcept ss v)).sum
      = T / sumsExcept ss v := by
    rw [sum_map_div, hsum _ ht_mem]
  obtain ⟨dev, hdev⟩ := maxAbsDev_ne_nil
    ((margs.getD v []).map (fun x => x / sumsExcept ss v))
    (by rw [Ne, List.map_eq_nil_iff]; exact htne)
  refine ⟨facMul ss v ((margs.getD v []).map (fun x => x / sumsExcept ss v)), dev, ?_, ?_⟩
  · show (scaleAxis (dimsOf margs) v (ratioOf (margs.getD v [])
        (margOf (dimsOf margs) v (prodData (dimsOf margs) ss)))
          (prodData (dimsOf margs) ss),
        maxAbsDev (ratioOf (margs.getD v [])
          (margOf (dimsOf margs) v (prodData (dimsOf margs) ss))))
        = (prodData (dimsOf margs)
            (facMul ss v ((margs.getD v []).map fun x => x / sumsExcept ss v)), some dev)
    rw [hratio, hdev]
    rw [scaleAxis_prodData hlend haxd hvd (by rw [hrmap_len, hnv])]
  · refine ⟨?_, ?_, ?_, ?_, ?_⟩
    · rw [length_facMul, hlen]
    · intro w
      by_cases hw : w = v
      · subst hw
        rw [facMul_getD_self ss w _ (by rw [hlen]; exact hv)]
        rw [List.length_zipWith, haxlen w, hrmap_len, min_self]
      · rw [facMul_getD_ne ss v _ hw, haxlen w]
    · intro w hw
      rw [facMul_getD_ne ss v _ (by omega)]
      exact huni w (by omega)
    · intro w hw c
      by_cases hwv : w = v
      · subst hwv
        rw [facMul_getD_self ss w _ (by rw [hlen]; exact hv), hsv,
          one_zipWith hrmap_len, sumsExcept_facMul_self]
        rcases lt_or_ge c (margs.getD w []).length with hc | hc
        · rw [getD_map _ _ hc, div_mul_cancel₀ _ hP]
        · rw [getD_eq_default_of_le _ _ (by rw [hrmap_len]; exact hc), zero_mul,
            getD_eq_default_of_le _ _ hc]
      · have hwv' : w < v := by omega
        have hv0 : 0 < v := by omega
        rw [facMul_getD_ne ss v _ hwv]
        have hTP : T / sumsExcept ss v = ((margs.getD v []).length : ℚ) := by
          have hmul := sumsExcept_mul_sum ss v (by rw [hlen]; exact hv)
          rw [hprod hv0, hssum] at hmul
          rw [← hmul, mul_comm, mul_div_assoc, div_self hP, mul_one]
        have hsums : (facMul ss v ((margs.getD v []).map
            (fun x => x / sumsExcept ss v))).map List.sum = ss.map List.sum := by
          apply map_sum_facMul (by rw [hlen]; exact hv)
          rw [hsv, one_zipWith hrmap_len, hrsum, sum_replicate_one]
          exact hTP
        rw [sumsExcept_congr hsums w]
        exact hdone w hwv' c
    · intro _
      have hvlt : v < (facMul ss v ((margs.getD v []).map
          (fun x => x / sumsExcept ss v))).length := by
        rw [length_facMul, hlen]; exact hv
      rw [← sumsExcept_mul_sum _ v hvlt, sumsExcept_facMul_self,
        facMul_getD_self ss v _ (by rw [hlen]; exact hv), hsv,
        one_zipWith hrmap_len, hrsum, mul_comm, div_mul_cancel₀ _ hP]

lemma sweep1_exact (margs : List (List ℚ)) (T : ℚ) (hT : T ≠ 0)
    (hne : ∀ ax ∈ margs, ax ≠ []) (hsum : ∀ ax ∈ margs, ax.sum = T) :
    ∀ (rest : List (List ℚ)) (v : Nat) (ss : List (List ℚ)) (mc : ℚ),
      margs.drop v = rest → ipfInv margs T v ss →
      ∃ ssF mc2, sweepAux (dimsOf margs) v rest (prodData (dimsOf margs) ss) mc
          = some (prodData (dimsOf margs) ssF, mc2)
        ∧ ssF.length = margs.length
        ∧ (∀ w, (ssF.getD w []).length = (margs.getD w []).length)
        ∧ (∀ w, w < margs.length → ∀ c,
            (ssF.getD w []).getD c 0 * sumsExcept ssF w = (margs.getD w []).getD c 0) := by
  intro rest
  induction rest with
  | nil =>
    intro v ss mc hdrop hinv
    have hlv : margs.length ≤ v := by
      have h := congrArg List.length hdrop
      rw [List.length_drop] at h
      simp at h
      omega
    exact ⟨ss, mc, rfl, hinv.1, hinv.2.1, fun w hw c => hinv.2.2.2.1 w (by omega) c⟩
  | cons t rest ih =>
    intro v ss mc hdrop hinv
    have hlen1 : margs.length - v = rest.length + 1 := by
      have h := congrArg List.length hdrop
      rw [List.length_drop] at h
      simpa using h
    have hv : v < margs.length := by omega
    have hget : margs[v]? = some t := by
      have h0 : (margs.drop v)[0]? = some t := by rw [hdrop]; simp
      rw [List.getElem?_drop] at h0
      simpa using h0
    have htv : margs.getD v [] = t := by
      rw [List.getD_eq_getElem?_getD, hget]
      rfl
    obtain ⟨ss2, dev, hstep, hinv2⟩ := ipfInv_step margs T hT hne hsum hv hinv
    have hdrop2 : margs.drop (v + 1) = rest := by
      have h1 : List.drop 1 (margs.drop v) = rest := by rw [hdrop]; rfl
      rw [List.drop_drop] at h1
      exact h1
    obtain ⟨ssF, mc2, hrun, hp⟩ := ih (v + 1) ss2 (max mc dev) hdrop2 hinv2
    refine ⟨ssF, mc2, ?_, hp⟩
    rw [show sweepAux (dimsOf margs) v (t :: rest) (prodData (dimsOf margs) ss) mc
        = (match (axisStep (dimsOf margs) v t (prodData (dimsOf margs) ss)).2 with
          | none => none
          | some d => sweepAux (dimsOf margs) (v + 1) rest
              (axisStep (dimsOf margs) v t (prodData (dimsOf margs) ss)).1 (max mc d))
      from rfl]
    rw [← htv, hstep]
    exact hrun

lemma length_scaleAxis (dims : List Nat) (k : Nat) (ratio data : List ℚ) :
    (scaleAxis dims k ratio data).length = data.length := by
  simp [scaleAxis]

lemma margEntry_nonneg (dims : List Nat) (k : Nat) {data : List ℚ}
    (h : ∀ x ∈ data, 0 ≤ x) (c : Nat) : 0 ≤ margEntry dims k data c := by
  apply Finset.sum_nonneg
  intro i _
  by_cases hc : coordOf dims k i = c
  · rw [if_pos hc]; exact getD_nonneg h i
  · rw [if_neg hc]

lemma ratioOf_nonneg {target current : List ℚ}
    (ht : ∀ x ∈ target, 0 ≤ x) (hc : ∀ x ∈ current, 0 ≤ x) :
    ∀ r ∈ ratioOf target current, 0 ≤ r := by
  induction target generalizing current with
  | nil => intro r hr; cases hr
  | cons t ts ih =>
    cases current with
    | nil => intro r hr; cases hr
    | cons c cs =>
      intro r hr
      rcases List.mem_cons.mp hr with rfl | hr
      · show (0:ℚ) ≤ if c = 0 then 0 else t / c
        by_cases h0 : c = 0
        · rw [if_pos h0]
        · rw [if_neg h0]
          exact div_nonneg (ht t (List.mem_cons_self _ _)) (hc c (List.mem_cons_self _ _))
      · exact ih (fun x hx => ht x (List.mem_cons_of_mem _ hx))
          (fun x hx => hc x (List.mem_cons_of_mem _ hx)) r hr

lemma scaleAxis_nonneg (dims : List Nat) (k : Nat) {ratio data : List ℚ}
    (hr : ∀ x ∈ ratio, 0 ≤ x) (hd : ∀ x ∈ data, 0 ≤ x) :
    ∀ x ∈ scaleAxis dims k ratio data, 0 ≤ x := by
  intro x hx
  unfold scaleAxis at hx
  rcases List.mem_map.mp hx with ⟨i, _, rfl⟩
  exact mul_nonneg (getD_nonneg hd i) (getD_nonneg hr _)

lemma margOf_mem_nonneg (dims : List Nat) (k : Nat) {data : List ℚ}
    (hd : ∀ x ∈ data, 0 ≤ x) : ∀ x ∈ margOf dims k data, 0 ≤ x := by
  intro x hx
  unfold margOf at hx
  rcases List.mem_map.mp hx with ⟨c, _, rfl⟩
  exact margEntry_nonneg dims k hd c

lemma axisStep_nonneg (dims : List Nat) (k : Nat) {target data : List ℚ}
    (ht : ∀ x ∈ target, 0 ≤ x) (hd : ∀ x ∈ data, 0 ≤ x) :
    ∀ x ∈ (axisStep dims k target data).1, 0 ≤ x := by
  show ∀ x ∈ scaleAxis dims k (ratioOf target (margOf dims k data)) data, 0 ≤ x
  exact scaleAxis_nonneg dims k
    (ratioOf_nonneg ht (margOf_mem_nonneg dims k hd)) hd

lemma sweepAux_nonneg (dims : List Nat) :
    ∀ (rest : List (List ℚ)) (k : Nat) (data : List ℚ) (mc : ℚ)
      (out : List ℚ × ℚ),
      (∀ ax ∈ rest, ∀ x ∈ ax, 0 ≤ x) → (∀ x ∈ data, 0 ≤ x) →
      sweepAux dims k rest data mc = some out → ∀ x ∈ out.1, 0 ≤ x := by
  intro rest
  induction rest with
  | nil =>
    intro k data mc out _ hd hrun
    cases hrun
    exact hd
  | cons t rest ih =>
    intro k data mc out hts hd hrun
    rw [show sweepAux dims k (t :: rest) data mc
        = (match (axisStep dims k t data).2 with
          | none => none
          | some d => sweepAux dims (k + 1) rest (axisStep dims k t data).1 (max mc d))
      from rfl] at hrun
    cases hmd : (axisStep dims k t data).2 with
    | none => rw [hmd] at hrun; cases hrun
    | some d =>
      rw [hmd] at hrun
      exact ih (k + 1) _ (max mc d) out (fun ax ha => hts ax (List.mem_cons_of_mem _ ha))
        (axisStep_nonneg dims k (hts t (List.mem_cons_self _ _)) hd) hrun

lemma axisStep_fix (margs : List (List ℚ)) {k : Nat} {X : List ℚ}
    (hne : ∀ ax ∈ margs, ax ≠ []) (hk : k < margs.length)
    (hlen : X.length = (dimsOf margs).prod)
    (hnn : ∀ x ∈ X, 0 ≤ x)
    (hmarg : ∀ c, c < (margs.getD k []).length →
      margEntry (dimsOf margs) k X c = (margs.getD k []).getD c 0) :
    (axisStep (dimsOf margs) k (margs.getD k []) X).1 = X := by
  show scaleAxis (dimsOf margs) k
      (ratioOf (margs.getD k []) (margOf (dimsOf margs) k X)) X = X
  apply list_eq_of_getD
  · exact length_scaleAxis _ _ _ _
  intro i hi
  have hi' : i < X.length := by rw [← length_scaleAxis (dimsOf margs) k
    (ratioOf (margs.getD k []) (margOf (dimsOf margs) k X)) X]; exact hi
  unfold scaleAxis
  rw [getD_range_map _ _ hi']
  have hiprod : i < (dimsOf margs).prod := by rw [← hlen]; exact hi'
  have hprodpos : 0 < (dimsOf margs).prod := dims_prod_pos hne
  have hkd : k < (dimsOf margs).length := by rw [dimsOf_length]; exact hk
  have hdk : 0 < (dimsOf margs).getD k 0 := dims_getD_pos hprodpos hkd
  have hco : coordOf (dimsOf margs) k i < (dimsOf margs).getD k 0 := Nat.mod_lt _ hdk
  have hco' : coordOf (dimsOf margs) k i < (margs.getD k []).length := by
    rw [← dimsOf_getD]; exact hco
  have hmoflen : (margOf (dimsOf margs) k X).length = (margs.getD k []).length := by
    unfold margOf
    rw [List.length_map, List.length_range, dimsOf_getD]
  have hcur : (margOf (dimsOf margs) k X).getD (coordOf (dimsOf margs) k i) 0
      = (margs.getD k []).getD (coordOf (dimsOf margs) k i) 0 := by
    unfold margOf
    rw [getD_range_map _ _ hco]
    exact hmarg _ hco'
  have hratioD : (ratioOf (margs.getD k []) (margOf (dimsOf margs) k X)).getD
      (coordOf (dimsOf margs) k i) 0
      = if (margs.getD k []).getD (coordOf (dimsOf margs) k i) 0 = 0 then 0 else 1 := by
    unfold ratioOf
    rw [zipWith_getD _ _ _ hco' (by rw [hmoflen]; exact hco'), hcur]
    by_cases h0 : (margs.getD k []).getD (coordOf (dimsOf margs) k i) 0 = 0
    · rw [if_pos h0, if_pos h0]
    · rw [if_neg h0, if_neg h0, div_self h0]
  rw [hratioD]
  by_cases h0 : (margs.getD k []).getD (coordOf (dimsOf margs) k i) 0 = 0
  · rw [if_pos h0, mul_zero]
    have hz : margEntry (dimsOf margs) k X (coordOf (dimsOf margs) k i) = 0 := by
      rw [hmarg _ hco']
      exact h0
    have hterm := (Finset.sum_eq_zero_iff_of_nonneg (fun j _ => by
      by_cases hj : coordOf (dimsOf margs) k j = coordOf (dimsOf margs) k i
      · rw [if_pos hj]; exact getD_nonneg hnn j
      · rw [if_neg hj])).mp hz i (Finset.mem_range.mpr hiprod)
    rw [if_pos rfl] at hterm
    exact hterm.symm
  · rw [if_neg h0, mul_one]

lemma sweepAux_fix (margs : List (List ℚ)) (hne : ∀ ax ∈ margs, ax ≠ [])
    {X : List ℚ} (hlen : X.length = (dimsOf margs).prod)
    (hnn : ∀ x ∈ X, 0 ≤ x)
    (hmarg : ∀ k, k < margs.length → ∀ c, c < (margs.getD k []).length →
      margEntry (dimsOf margs) k X c = (margs.getD k []).getD c 0) :
    ∀ (rest : List (List ℚ)) (v : Nat) (mc : ℚ), margs.drop v = rest →
      ∃ mc2, sweepAux (dimsOf margs) v rest X mc = some (X, mc2) := by
  intro rest
  induction rest with
  | nil => intro v mc _; exact ⟨mc, rfl⟩
  | cons t rest ih =>
    intro v mc hdrop
    have hlen1 : margs.length - v = rest.length + 1 := by
      have h := congrArg List.length hdrop
      rw [List.length_drop] at h
      simpa using h
    have hv : v < margs.length := by omega
    have hget : margs[v]? = some t := by
      have h0 : (margs.drop v)[0]? = some t := by rw [hdrop]; simp
      rw [List.getElem?_drop] at h0
      simpa using h0
    have htv : margs.getD v [] = t := by
      rw [List.getD_eq_getElem?_getD, hget]
      rfl
    have hfix := axisStep_fix margs hne hv hlen hnn (hmarg v hv)
    have htne : margs.getD v [] ≠ [] := hne _ (getD_mem_of_lt margs [] hv)
    have hmoflen : (margOf (dimsOf margs) v X).length = (margs.getD v []).length := by
      unfold margOf
      rw [List.length_map, List.length_range, dimsOf_getD]
    obtain ⟨dev, hdev⟩ := maxAbsDev_ne_nil
      (ratioOf (margs.getD v []) (margOf (dimsOf margs) v X))
      (by
        have : (ratioOf (margs.getD v []) (margOf (dimsOf margs) v X)).length
            = (margs.getD v []).length := by
          unfold ratioOf
          rw [List.length_zipWith, hmoflen, min_self]
        intro hnil
        rw [hnil] at this
        exact htne (List.eq_nil_of_length_eq_zero this.symm)
      )
    have hdrop2 : margs.drop (v + 1) = rest := by
      have h1 : List.drop 1 (margs.drop v) = rest := by rw [hdrop]; rfl
      rw [List.drop_drop] at h1
      exact h1
    obtain ⟨mc2, hrun⟩ := ih (v + 1) (max mc dev) hdrop2
    refine ⟨mc2, ?_⟩
    rw [show sweepAux (dimsOf margs) v (t :: rest) X mc
        = (match (axisStep (dimsOf margs) v t X).2 with
          | none => none
          | some d => sweepAux (dimsOf margs) (v + 1) rest
              (axisStep (dimsOf margs) v t X).1 (max mc d))
      from rfl]
    rw [← htv]
    have hsnd : (axisStep (dimsOf margs) v (margs.getD v []) X).2 = some dev := hdev
    rw [hsnd, hfix]
    exact hrun

lemma ipfLoop_fix (margs : List (List ℚ)) (tol : ℚ)
    (hne : ∀ ax ∈ margs, ax ≠ [])
    {X : List ℚ} (hlen : X.length = (dimsOf margs).prod)
    (hnn : ∀ x ∈ X, 0 ≤ x)
    (hmarg : ∀ k, k < margs.length → ∀ c, c < (margs.getD k []).length →
      margEntry (dimsOf margs) k X c = (margs.getD k []).getD c 0) :
    ∀ (k : Nat) (mc : ℚ), ∃ dev, ipfLoop (dimsOf margs) margs tol k X mc = some (X, dev) := by
  intro k
  induction k with
  | zero => intro mc; exact ⟨mc, rfl⟩
  | succ k ih =>
    intro mc
    obtain ⟨mc2, hsw⟩ := sweepAux_fix margs hne hlen hnn hmarg margs 0 0 rfl
    by_cases hc : mc2 < tol
    · refine ⟨mc2, ?_⟩
      rw [show ipfLoop (dimsOf margs) margs tol (k + 1) X mc
          = (match sweepAux (dimsOf margs) 0 margs X 0 with
            | none => none
            | some (d, mc1) =>
              if mc1 < tol then some (d, mc1)
              else ipfLoop (dimsOf margs) margs tol k d mc1)
        from rfl]
      rw [hsw]
      show (if mc2 < tol then some (X, mc2)
        else ipfLoop (dimsOf margs) margs tol k X mc2) = some (X, mc2)
      rw [if_pos hc]
    · obtain ⟨dev, hdev⟩ := ih mc2
      refine ⟨dev, ?_⟩
      rw [show ipfLoop (dimsOf margs) margs tol (k + 1) X mc
          = (match sweepAux (dimsOf margs) 0 margs X 0 with
            | none => none
            | some (d, mc1) =>
              if mc1 < tol then some (d, mc1)
              else ipfLoop (dimsOf margs) margs tol k d mc1)
        from rfl]
      rw [hsw]
      show (if mc2 < tol then some (X, mc2)
        else ipfLoop (dimsOf margs) margs tol k X mc2) = some (X, dev)
      rw [if_neg hc]
      exact hdev

lemma sweepAux_cons (dims : List Nat) (k : Nat) (t : List ℚ)
    (rest : List (List ℚ)) (data : List ℚ) (mc : ℚ) :
    sweepAux dims k (t :: rest) data mc
      = match (axisStep dims k t data).2 with
        | none => none
        | some d => sweepAux dims (k + 1) rest (axisStep dims k t data).1 (max mc d) :=
  rfl

lemma sweepAux_mc_le (dims : List Nat) :
    ∀ (rest : List (List ℚ)) (k : Nat) (data : List ℚ) (mc : ℚ)
      (out : List ℚ × ℚ),
      sweepAux dims k rest data mc = some out → mc ≤ out.2 := by
  intro rest
  induction rest with
  | nil =>
    intro k data mc out hrun
    cases hrun
    exact le_rfl
  | cons t rest ih =>
    intro k data mc out hrun
    rw [show sweepAux dims k (t :: rest) data mc
        = (match (axisStep dims k t data).2 with
          | none => none
          | some d => sweepAux dims (k + 1) rest (axisStep dims k t data).1 (max mc d))
      from rfl] at hrun
    cases hmd : (axisStep dims k t data).2 with
    | none => rw [hmd] at hrun; cases hrun
    | some d =>
      rw [hmd] at hrun
      exact le_trans (le_max_left mc d) (ih (k + 1) _ (max mc d) out hrun)

lemma ipfLoop_dev_nonneg (dims : List Nat) (margs : List (List ℚ)) (tol : ℚ) :
    ∀ (k : Nat) (data : List ℚ) (mc : ℚ) (out : List ℚ × ℚ),
      0 ≤ mc → ipfLoop dims margs tol k data mc = some out → 0 ≤ out.2 := by
  intro k
  induction k with
  | zero =>
    intro data mc out hmc hrun
    cases hrun
    exact hmc
  | succ k ih =>
    intro data mc out hmc hrun
    rw [show ipfLoop dims margs tol (k + 1) data mc
        = (match sweepAux dims 0 margs data 0 with
          | none => none
          | some (d, mc1) =>
            if mc1 < tol then some (d, mc1) else ipfLoop dims margs tol k d mc1)
      from rfl] at hrun
    cases hsw : sweepAux dims 0 margs data 0 with
    | none => rw [hsw] at hrun; cases hrun
    | some p =>
      rw [hsw] at hrun
      have hmc1 : 0 ≤ p.2 := sweepAux_mc_le dims margs 0 data 0 p hsw
      obtain ⟨d1, m1⟩ := p
      have hrun2 : (if m1 < tol then some (d1, m1)
          else ipfLoop dims margs tol k d1 m1) = some out := hrun
      by_cases hc : m1 < tol
      · rw [if_pos hc] at hrun2
        have hout : out = (d1, m1) := (Option.some.injEq _ _ ▸ hrun2).symm
        rw [hout]
        exact hmc1
      · rw [if_neg hc] at hrun2
        exact ih d1 m1 out hmc1 hrun2

lemma ratioOf_zero_target {target current : List ℚ}
    (ht : ∀ x ∈ target, x = 0) :
    ∀ j, (ratioOf target current).getD j 0 = 0 := by
  intro j
  rcases lt_or_ge j (ratioOf target current).length with hj | hj
  · have hjboth : j < target.length ∧ j < current.length := by
      unfold ratioOf at hj
      rw [List.length_zipWith] at hj
      exact ⟨lt_of_lt_of_le hj (min_le_left _ _), lt_of_lt_of_le hj (min_le_right _ _)⟩
    unfold ratioOf
    rw [zipWith_getD _ _ _ hjboth.1 hjboth.2,
      getD_eq_zero_of_all_zero ht j]
    by_cases hc : current.getD j 0 = 0
    · rw [if_pos hc]
    · rw [if_neg hc, zero_div]
  · exact getD_eq_default_of_le _ _ hj

lemma margEntry_replicate_zero (dims : List Nat) (k : Nat) (N c : Nat) :
    margEntry dims k (List.replicate N (0:ℚ)) c = 0 := by
  unfold margEntry
  apply Finset.sum_eq_zero
  intro i _
  by_cases h : coordOf dims k i = c
  · rw [if_pos h]
    exact getD_eq_zero_of_all_zero (fun x hx => List.eq_of_mem_replicate hx) i
  · rw [if_neg h]

lemma scaleAxis_zero_ratio (dims : List Nat) (k : Nat) {ratio : List ℚ}
    (data : List ℚ) (hr : ∀ j, ratio.getD j 0 = 0) :
    scaleAxis dims k ratio data = List.replicate data.length 0 := by
  apply list_eq_of_getD
  · simp [scaleAxis]
  intro i hi
  have hi' : i < data.length := by
    rw [← length_scaleAxis dims k ratio data]
    exact hi
  unfold scaleAxis
  rw [getD_range_map _ _ hi', hr, mul_zero, getD_replicate _ _ hi']

/-- After the first executed sweep of the fitter (uniform start, non-empty
axes, non-negative targets, consistent totals), the table's marginal along
every axis is exactly the target vector. -/
lemma first_sweep (margs : List (List ℚ))
    (hne : ∀ ax ∈ margs, ax ≠ [])
    (hnn : ∀ ax ∈ margs, ∀ x ∈ ax, 0 ≤ x)
    (hcons : ∀ ax ∈ margs, ∀ bx ∈ margs, ax.sum = bx.sum) (mc : ℚ) :
    ∃ Y mc2, sweepAux (dimsOf margs) 0 margs
        (List.replicate (dimsOf margs).prod 1) mc = some (Y, mc2)
      ∧ Y.length = (dimsOf margs).prod
      ∧ (∀ y ∈ Y, 0 ≤ y)
      ∧ (∀ k, k < margs.length → ∀ c, c < (margs.getD k []).length →
          margEntry (dimsOf margs) k Y c = (margs.getD k []).getD c 0) := by
  cases hm : margs with
  | nil =>
    refine ⟨List.replicate (dimsOf []).prod 1, mc, rfl, rfl, ?_, ?_⟩
    · intro y hy
      rw [List.eq_of_mem_replicate hy]
      exact zero_le_one
    · intro k hk
      exact absurd hk (by simp)
  | cons a mrest =>
    rw [← hm]
    by_cases hT : a.sum = 0
    · -- all targets are zero: the first axis step zeroes the table,
      -- and the zero table is a fixed point with exact (zero) marginals
      have hzero : ∀ ax ∈ margs, ∀ x ∈ ax, x = 0 := by
        intro ax hax
        have hsum0 : ax.sum = 0 := by
          rw [hcons ax hax a (by rw [hm]; exact List.mem_cons_self _ _)]
          exact hT
        exact all_zero_of_sum_zero (hnn ax hax) hsum0
      have hZlen : (List.replicate (dimsOf margs).prod (0:ℚ)).length
          = (dimsOf margs).prod := List.length_replicate _ _
      have hZnn : ∀ x ∈ List.replicate (dimsOf margs).prod (0:ℚ), 0 ≤ x := by
        intro x hx
        rw [List.eq_of_mem_replicate hx]
      have hZmarg : ∀ k, k < margs.length → ∀ c, c < (margs.getD k []).length →
          margEntry (dimsOf margs) k (List.replicate (dimsOf margs).prod (0:ℚ)) c
            = (margs.getD k []).getD c 0 := by
        intro k hk c _
        rw [margEntry_replicate_zero,
          getD_eq_zero_of_all_zero (hzero _ (getD_mem_of_lt margs [] hk)) c]
      have h0lt : 0 < margs.length := by rw [hm]; simp
      have hget : margs[0]? = some a := by rw [hm]; simp
      have hta : margs.getD 0 [] = a := by
        rw [List.getD_eq_getElem?_getD, hget]
        rfl
      have haz : ∀ x ∈ a, x = 0 :=
        hzero a (by rw [hm]; exact List.mem_cons_self _ _)
      have hane : a ≠ [] := hne a (by rw [hm]; exact List.mem_cons_self _ _)
      have honeslen : (List.replicate (dimsOf margs).prod (1:ℚ)).length
          = (dimsOf margs).prod := List.length_replicate _ _
      have hstep1 : (axisStep (dimsOf margs) 0 a
          (List.replicate (dimsOf margs).prod 1)).1
          = List.replicate (dimsOf margs).prod 0 := by
        show scaleAxis (dimsOf margs) 0
            (ratioOf a (margOf (dimsOf margs) 0 (List.replicate (dimsOf margs).prod 1)))
            (List.replicate (dimsOf margs).prod 1)
          = List.replicate (dimsOf margs).prod 0
        rw [scaleAxis_zero_ratio _ _ _ (ratioOf_zero_target haz), honeslen]
      have hmoflen : (margOf (dimsOf margs) 0
          (List.replicate (dimsOf margs).prod 1)).length = a.length := by
        unfold margOf
        rw [List.length_map, List.length_range, dimsOf_getD, hta]
      obtain ⟨dev, hdev⟩ := maxAbsDev_ne_nil
        (ratioOf a (margOf (dimsOf margs) 0 (List.replicate (dimsOf margs).prod 1)))
        (by
          have hl : (ratioOf a (margOf (dimsOf margs) 0
              (List.replicate (dimsOf margs).prod 1))).length = a.length := by
            unfold ratioOf
            rw [List.length_zipWith, hmoflen, min_self]
          intro hnil
          rw [hnil] at hl
          exact hane (List.eq_nil_of_length_eq_zero hl.symm))
      have hdrop1 : margs.drop 1 = mrest := by rw [hm]; rfl
      obtain ⟨mc2, hrest⟩ := sweepAux_fix margs hne hZlen hZnn hZmarg mrest 1
        (max mc dev) hdrop1
      refine ⟨List.replicate (dimsOf margs).prod 0, mc2, ?_, hZlen, hZnn, hZmarg⟩
      have hpeel : sweepAux (dimsOf margs) 0 margs
          (List.replicate (dimsOf margs).prod 1) mc
          = sweepAux (dimsOf margs) 0 (a :: mrest)
            (List.replicate (dimsOf margs).prod 1) mc :=
        congrArg (fun l => sweepAux (dimsOf margs) 0 l
          (List.replicate (dimsOf margs).prod 1) mc) hm
      have hsnd : (axisStep (dimsOf margs) 0 a
          (List.replicate (dimsOf margs).prod 1)).2 = some dev := hdev
      rw [hpeel, sweepAux_cons, hsnd, hstep1]
      exact hrest
    · -- nonzero common total: the product-form sweep analysis applies
      have hsum : ∀ ax ∈ margs, ax.sum = a.sum := by
        intro ax hax
        exact hcons ax hax a (by rw [hm]; exact List.mem_cons_self _ _)
      obtain ⟨ssF, mc2, hrun, hlenF, haxlF, hmargsF⟩ :=
        sweep1_exact margs a.sum hT hne hsum margs 0 (uniformFac margs) mc rfl
          (ipfInv_base margs a.sum)
      rw [prodData_uniform] at hrun
      have hlend : ssF.length = (dimsOf margs).length := by
        rw [hlenF, dimsOf_length]
      have haxd : ∀ w, (ssF.getD w []).length = (dimsOf margs).getD w 0 := fun w => by
        rw [haxlF w, dimsOf_getD]
      refine ⟨prodData (dimsOf margs) ssF, mc2, hrun, length_prodData _ _, ?_, ?_⟩
      · apply sweepAux_nonneg (dimsOf margs) margs 0
          (List.replicate (dimsOf margs).prod 1) mc _ hnn ?_ hrun
        intro x hx
        rw [List.eq_of_mem_replicate hx]
        exact zero_le_one
      · intro k hk c hc
        have hkd : k < (dimsOf margs).length := by rw [dimsOf_length]; exact hk
        rw [margEntry_prodData hlend haxd k c hkd (by rw [dimsOf_getD]; exact hc)]
        exact hmargsF k hk c

lemma ipfLoop_succ (dims : List Nat) (margs : List (List ℚ)) (tol : ℚ)
    (k : Nat) (data : List ℚ) (mc : ℚ) :
    ipfLoop dims margs tol (k + 1) data mc
      = match sweepAux dims 0 margs data 0 with
        | none => none
        | some (d, mc1) =>
          if mc1 < tol then some (d, mc1) else ipfLoop dims margs tol k d mc1 :=
  rfl

lemma sweepAux_isSome (margs : List (List ℚ)) (hne : ∀ ax ∈ margs, ax ≠ []) :
    ∀ (rest : List (List ℚ)) (v : Nat) (data : List ℚ) (mc : ℚ),
      margs.drop v = rest →
      ∃ out, sweepAux (dimsOf margs) v rest data mc = some out := by
  intro rest
  induction rest with
  | nil => intro v data mc _; exact ⟨(data, mc), rfl⟩
  | cons t rest ih =>
    intro v data mc hdrop
    have hlen1 : margs.length - v = rest.length + 1 := by
      have h := congrArg List.length hdrop
      rw [List.length_drop] at h
      simpa using h
    have hv : v < margs.length := by omega
    have hget : margs[v]? = some t := by
      have h0 : (margs.drop v)[0]? = some t := by rw [hdrop]; simp
      rw [List.getElem?_drop] at h0
      simpa using h0
    have htv : margs.getD v [] = t := by
      rw [List.getD_eq_getElem?_getD, hget]
      rfl
    have htne : t ≠ [] := by rw [← htv]; exact hne _ (getD_mem_of_lt margs [] hv)
    have hmoflen : (margOf (dimsOf margs) v data).length = t.length := by
      unfold margOf
      rw [List.length_map, List.length_range, dimsOf_getD, htv]
    obtain ⟨dev, hdev⟩ := maxAbsDev_ne_nil (ratioOf t (margOf (dimsOf margs) v data))
      (by
        have hl : (ratioOf t (margOf (dimsOf margs) v data)).length = t.length := by
          unfold ratioOf
          rw [List.length_zipWith, hmoflen, min_self]
        intro hnil
        rw [hnil] at hl
        exact htne (List.eq_nil_of_length_eq_zero hl.symm))
    have hdrop2 : margs.drop (v + 1) = rest := by
      have h1 : List.drop 1 (margs.drop v) = rest := by rw [hdrop]; rfl
      rw [List.drop_drop] at h1
      exact h1
    obtain ⟨out, hout⟩ := ih (v + 1) (axisStep (dimsOf margs) v t data).1
      (max mc dev) hdrop2
    refine ⟨out, ?_⟩
    rw [sweepAux_cons, show (axisStep (dimsOf margs) v t data).2 = some dev from hdev]
    exact hout

lemma ipfLoop_isSome (margs : List (List ℚ)) (tol : ℚ)
    (hne : ∀ ax ∈ margs, ax ≠ []) :
    ∀ (k : Nat) (data : List ℚ) (mc : ℚ),
      ∃ out, ipfLoop (dimsOf margs) margs tol k data mc = some out := by
  intro k
  induction k with
  | zero => intro data mc; exact ⟨(data, mc), rfl⟩
  | succ k ih =>
    intro data mc
    obtain ⟨⟨d1, m1⟩, hsw⟩ := sweepAux_isSome margs hne margs 0 data 0 rfl
    by_cases hc : m1 < tol
    · refine ⟨(d1, m1), ?_⟩
      rw [ipfLoop_succ, hsw]
      show (if m1 < tol then some (d1, m1)
        else ipfLoop (dimsOf margs) margs tol k d1 m1) = some (d1, m1)
      rw [if_pos hc]
    · obtain ⟨out, hout⟩ := ih d1 m1
      refine ⟨out, ?_⟩
      rw [ipfLoop_succ, hsw]
      show (if m1 < tol then some (d1, m1)
        else ipfLoop (dimsOf margs) margs tol k d1 m1) = some out
      rw [if_neg hc]
      exact hout

lemma sweepAux_none_of_nil (margs : List (List ℚ)) :
    ∀ (rest : List (List ℚ)) (v : Nat) (data : List ℚ) (mc : ℚ),
      margs.drop v = rest → [] ∈ rest →
      sweepAux (dimsOf margs) v rest data mc = none := by
  intro rest
  induction rest with
  | nil => intro v data mc _ hmem; cases hmem
  | cons t rest ih =>
    intro v data mc hdrop hmem
    by_cases ht : t = []
    · subst ht
      rw [sweepAux_cons]
      rw [show (axisStep (dimsOf margs) v [] data).2 = none from rfl]
    · have hmem2 : [] ∈ rest := by
        rcases List.mem_cons.mp hmem with h | h
        · exact absurd h.symm ht
        · exact h
      have hlen1 : margs.length - v = rest.length + 1 := by
        have h := congrArg List.length hdrop
        rw [List.length_drop] at h
        simpa using h
      have hv : v < margs.length := by omega
      have hget : margs[v]? = some t := by
        have h0 : (margs.drop v)[0]? = some t := by rw [hdrop]; simp
        rw [List.getElem?_drop] at h0
        simpa using h0
      have htv : margs.getD v [] = t := by
        rw [List.getD_eq_getElem?_getD, hget]
        rfl
      have hmoflen : (margOf (dimsOf margs) v data).length = t.length := by
        unfold margOf
        rw [List.length_map, List.length_range, dimsOf_getD, htv]
      obtain ⟨dev, hdev⟩ := maxAbsDev_ne_nil (ratioOf t (margOf (dimsOf margs) v data))
        (by
          have hl : (ratioOf t (margOf (dimsOf margs) v data)).length = t.length := by
            unfold ratioOf
            rw [List.length_zipWith, hmoflen, min_self]
          intro hnil
          rw [hnil] at hl
          exact ht (List.eq_nil_of_length_eq_zero hl.symm))
      have hdrop2 : margs.drop (v + 1) = rest := by
        have h1 : List.drop 1 (margs.drop v) = rest := by rw [hdrop]; rfl
        rw [List.drop_drop] at h1
        exact h1
      rw [sweepAux_cons, show (axisStep (dimsOf margs) v t data).2 = some dev from hdev]
      exact ih (v + 1) (axisStep (dimsOf margs) v t data).1 (max mc dev) hdrop2 hmem2

lemma ipfRun_none_of_nil (margs : List (List ℚ)) (tol : ℚ) (mi : Nat)
    (hmem : [] ∈ margs) (hmi : 1 ≤ mi) : ipfRun margs mi tol = none := by
  obtain ⟨mi2, rfl⟩ : ∃ mi2, mi = mi2 + 1 := ⟨mi - 1, by omega⟩
  unfold ipfRun
  rw [ipfLoop_succ,
    sweepAux_none_of_nil margs margs 0 (List.replicate (dimsOf margs).prod 1) 0 rfl hmem]

lemma ipfLoop_nonneg (dims : List Nat) (margs : List (List ℚ)) (tol : ℚ)
    (hts : ∀ ax ∈ margs, ∀ x ∈ ax, 0 ≤ x) :
    ∀ (k : Nat) (data : List ℚ) (mc : ℚ) (out : List ℚ × ℚ),
      (∀ x ∈ data, 0 ≤ x) → ipfLoop dims margs tol k data mc = some out →
      ∀ x ∈ out.1, 0 ≤ x := by
  intro k
  induction k with
  | zero =>
    intro data mc out hd hrun
    cases hrun
    exact hd
  | succ k ih =>
    intro data mc out hd hrun
    rw [ipfLoop_succ] at hrun
    cases hsw : sweepAux dims 0 margs data 0 with
    | none => rw [hsw] at hrun; cases hrun
    | some p =>
      rw [hsw] at hrun
      obtain ⟨d1, m1⟩ := p
      have hd1 : ∀ x ∈ d1, 0 ≤ x :=
        sweepAux_nonneg dims margs 0 data 0 (d1, m1) hts hd hsw
      have hrun2 : (if m1 < tol then some (d1, m1)
          else ipfLoop dims margs tol k d1 m1) = some out := hrun
      by_cases hc : m1 < tol
      · rw [if_pos hc] at hrun2
        have hout := Option.some.inj hrun2
        rw [← hout]
        exact hd1
      · rw [if_neg hc] at hrun2
        exact ih d1 m1 out hd1 hrun2

lemma decodeRow_isSome :
    ∀ (cs : List (String × List String)) (j : Nat) (t : List Nat),
      (∀ i, i < cs.length → ∃ c, t.get? (j + i) = some c
        ∧ c < ((cs.getD i ("", [])).2).length) →
      ∃ r, decodeRow cs j t = some r := by
  intro cs
  induction cs with
  | nil => intro j t _; exact ⟨[], rfl⟩
  | cons p cs ih =>
    intro j t hyp
    obtain ⟨ax, labels⟩ := p
    obtain ⟨c, hc, hclt⟩ := hyp 0 (by simp)
    rw [Nat.add_zero] at hc
    have hclt2 : c < labels.length := by simpa using hclt
    have hlab2 : labels.get? c = some labels[c] := by
      rw [List.get?_eq_getElem?]
      exact List.getElem?_eq_getElem hclt2
    obtain ⟨r, hr⟩ := ih (j + 1) t (fun i hi => by
      obtain ⟨c2, hc2, hlt2⟩ := hyp (i + 1) (by simpa using Nat.succ_lt_succ hi)
      refine ⟨c2, ?_, by simpa using hlt2⟩
      rw [← hc2]
      congr 1
      omega)
    exact ⟨(ax, labels[c]) :: r, by simp only [decodeRow, hc, hlab2, hr]⟩

lemma decodeAll_isSome (cvs : List (String × List String)) (dims : List Nat)
    (hax : cvs.length ≤ dims.length)
    (hlab : ∀ i, i < cvs.length → dims.getD i 0 ≤ ((cvs.getD i ("", [])).2).length) :
    ∀ idx : List Nat, (∀ d ∈ idx, d < dims.prod) →
      ∃ rows, decodeAll cvs dims idx = some rows ∧ rows.length = idx.length := by
  intro idx
  induction idx with
  | nil => intro _; exact ⟨[], rfl, rfl⟩
  | cons d ds ih =>
    intro hd
    have hdlt : d < dims.prod := hd d (List.mem_cons_self _ _)
    have hprodpos : 0 < dims.prod := lt_of_le_of_lt (Nat.zero_le d) hdlt
    obtain ⟨r, hr⟩ := decodeRow_isSome cvs 0 (unravelIndex dims d) (fun i hi => by
      have hidim : i < dims.length := lt_of_lt_of_le hi hax
      have hco : coordOf dims i d < dims.getD i 0 :=
        Nat.mod_lt _ (dims_getD_pos hprodpos hidim)
      refine ⟨coordOf dims i d, ?_, lt_of_lt_of_le hco (hlab i hi)⟩
      rw [Nat.zero_add]
      unfold unravelIndex
      rw [List.get?_eq_getElem?, List.getElem?_map, List.getElem?_range hidim]
      rfl)
    obtain ⟨rows, hrows, hlen⟩ := ih (fun x hx => hd x (List.mem_cons_of_mem _ hx))
    exact ⟨r :: rows, by simp only [decodeAll, hr, hrows], by simp [hlen]⟩

/-! ### Claim theorems -/

/-- C1 (marginal consistency): for every valid input — all marginals
non-empty with non-negative totals and consistent axis sums — on which the
fit converges (the run completes with final `max_change` below `tol`,
having run at least one sweep), every axis marginal of the returned table
equals the corresponding target total to within `tol`.  In the exact
rational model the marginals are in fact exactly the targets, hence within
any positive tolerance. -/
theorem C1_marginal_consistency
    (margs : List (List ℚ)) (mi : Nat) (tol : ℚ) (tab : List ℚ) (dev : ℚ)
    (hne : ∀ ax ∈ margs, ax ≠ [])
    (hnn : ∀ ax ∈ margs, ∀ x ∈ ax, 0 ≤ x)
    (hcons : ∀ ax ∈ margs, ∀ bx ∈ margs, ax.sum = bx.sum)
    (hmi : 1 ≤ mi)
    (hrun : ipfRun margs mi tol = some (tab, dev))
    (hconv : dev < tol) :
    iterative_proportional_fitting margs mi tol = some tab
    ∧ ∀ k, k < margs.length → ∀ c, c < (margs.getD k []).length →
      |(margOf (dimsOf margs) k tab).getD c 0 - (margs.getD k []).getD c 0| ≤ tol := by
  have hfit : iterative_proportional_fitting margs mi tol = some tab := by
    unfold iterative_proportional_fitting
    rw [hrun]
    rfl
  have hdev0 : 0 ≤ dev :=
    ipfLoop_dev_nonneg (dimsOf margs) margs tol mi
      (List.replicate (dimsOf margs).prod 1) 0 (tab, dev) le_rfl hrun
  have htol : 0 < tol := lt_of_le_of_lt hdev0 hconv
  obtain ⟨Y, mc1, hsw, hYlen, hYnn, hYmarg⟩ := first_sweep margs hne hnn hcons 0
  have htabY : tab = Y := by
    obtain ⟨mi2, rfl⟩ : ∃ mi2, mi = mi2 + 1 := ⟨mi - 1, by omega⟩
    unfold ipfRun at hrun
    rw [ipfLoop_succ, hsw] at hrun
    have hrun2 : (if mc1 < tol then some (Y, mc1)
        else ipfLoop (dimsOf margs) margs tol mi2 Y mc1) = some (tab, dev) := hrun
    by_cases hc : mc1 < tol
    · rw [if_pos hc] at hrun2
      exact (congrArg Prod.fst (Option.some.inj hrun2)).symm
    · rw [if_neg hc] at hrun2
      obtain ⟨dev2, hfix⟩ := ipfLoop_fix margs tol hne hYlen hYnn hYmarg mi2 mc1
      rw [hfix] at hrun2
      exact (congrArg Prod.fst (Option.some.inj hrun2)).symm
  refine ⟨hfit, ?_⟩
  intro k hk c hc
  rw [htabY]
  unfold margOf
  rw [getD_range_map _ _ (by rw [dimsOf_getD]; exact hc), hYmarg k hk c hc,
    sub_self, abs_zero]
  exact le_of_lt htol

/-- Witness for C1: the spec's concrete scenario — axes `sex` with targets
60/40 and `region` with targets 70/30 — converges and the marginal over
the first axis at category 0 matches the target 60 within `1e-6`. -/
theorem C1_witness :
    iterative_proportional_fitting [[60, 40], [70, 30]] 500 (1/1000000)
      = some [42, 18, 28, 12]
    ∧ |(margOf (dimsOf [[60, 40], [70, 30]]) 0 [42, 18, 28, 12]).getD 0 0
        - (([[60, 40], [70, 30]] : List (List ℚ)).getD 0 []).getD 0 0| ≤ 1/1000000 := by
  have h := C1_marginal_consistency [[60, 40], [70, 30]] 500 (1/1000000)
    [42, 18, 28, 12] 0
    (by with_unfolding_all decide) (by with_unfolding_all decide)
    (by with_unfolding_all decide) (by decide)
    (by with_unfolding_all decide) (by with_unfolding_all decide)
  exact ⟨h.1, h.2 0 (by decide) 0 (by decide)⟩

/-- C2 (scaling step): in every sweep, the step for axis `k` multiplies
each cell by the ratio of its axis-`k` category, where the ratio is
`target/current` for a nonzero current marginal and exactly 0 for a zero
one; cells differing only on other axes (equal axis-`k` coordinate)
receive the same factor; and the sweep loop performs exactly this step
before recursing on the remaining axes. -/
theorem C2_scaling_step (dims : List Nat) (k : Nat) (target data : List ℚ)
    (hk : k < dims.length) (hlen : target.length = dims.getD k 0)
    (_hdata : data.length = dims.prod) (hpos : 0 < dims.prod) :
    (∀ i, i < data.length →
      (axisStep dims k target data).1.getD i 0
        = data.getD i 0 *
          (if (margOf dims k data).getD (coordOf dims k i) 0 = 0 then 0
           else target.getD (coordOf dims k i) 0
             / (margOf dims k data).getD (coordOf dims k i) 0))
    ∧ (∀ i j : Nat, coordOf dims k i = coordOf dims k j →
        (ratioOf target (margOf dims k data)).getD (coordOf dims k i) 0
          = (ratioOf target (margOf dims k data)).getD (coordOf dims k j) 0)
    ∧ (∀ (rest : List (List ℚ)) (mc : ℚ), sweepAux dims k (target :: rest) data mc
        = match maxAbsDev (ratioOf target (margOf dims k data)) with
          | none => none
          | some d => sweepAux dims (k + 1) rest
              (scaleAxis dims k (ratioOf target (margOf dims k data)) data)
              (max mc d)) := by
  have hdk : 0 < dims.getD k 0 := dims_getD_pos hpos hk
  have hmoflen : (margOf dims k data).length = dims.getD k 0 := by
    unfold margOf
    rw [List.length_map, List.length_range]
  refine ⟨?_, ?_, ?_⟩
  · intro i hi
    show (scaleAxis dims k (ratioOf target (margOf dims k data)) data).getD i 0 = _
    unfold scaleAxis
    rw [getD_range_map _ _ hi]
    have hco : coordOf dims k i < dims.getD k 0 := Nat.mod_lt _ hdk
    unfold ratioOf
    rw [zipWith_getD _ _ _ (by rw [hlen]; exact hco) (by rw [hmoflen]; exact hco)]
  · intro i j h
    rw [h]
  · intro rest mc
    rfl

/-- Witness for C2 at a concrete one-axis step. -/
theorem C2_witness :
    (axisStep [2] 0 [(3:ℚ), 1] [1, 1]).1.getD 0 0
      = ([(1:ℚ), 1]).getD 0 0 *
        (if (margOf [2] 0 [(1:ℚ), 1]).getD (coordOf [2] 0 0) 0 = 0 then 0
         else ([(3:ℚ), 1]).getD (coordOf [2] 0 0) 0
           / (margOf [2] 0 [(1:ℚ), 1]).getD (coordOf [2] 0 0) 0) :=
  (C2_scaling_step [2] 0 [3, 1] [1, 1] (by decide) (by decide)
    (by decide) (by decide)).1 0 (by decide)

/-- C3 (non-convergence handling): when the iteration exhausts
`max_iterations` without the deviation falling below `tolerance`, the
table is still returned without an error — but, contrary to the claim,
the maximum-deviation metric is NOT exposed to the caller: the function
returns only the table, and no function of the returned value can recover
the metric (two runs returning the identical table have different final
deviations).  Concretely, marginals `[[2]]` with one iteration return the
table `[2]` after a non-convergent run of deviation 1, while two
iterations return the same table `[2]` with final deviation 0. -/
theorem C3_nonconvergence_metric :
    iterative_proportional_fitting [[2]] 1 (1/1000000) = some [2]
    ∧ ipfRun [[2]] 1 (1/1000000) = some ([2], 1)
    ∧ ¬ (1:ℚ) < 1/1000000
    ∧ iterative_proportional_fitting [[2]] 2 (1/1000000) = some [2]
    ∧ ipfRun [[2]] 2 (1/1000000) = some ([2], 0)
    ∧ ¬ ∃ g : List ℚ → ℚ, ∀ (m : List (List ℚ)) (mi : Nat) (t : ℚ)
        (tab : List ℚ) (dev : ℚ), ipfRun m mi t = some (tab, dev) → g tab = dev := by
  refine ⟨by with_unfolding_all decide, by with_unfolding_all decide,
    by with_unfolding_all decide, by with_unfolding_all decide,
    by with_unfolding_all decide, ?_⟩
  rintro ⟨g, hg⟩
  have h1 : g [2] = 1 := hg [[2]] 1 (1/1000000) [2] 1 (by with_unfolding_all decide)
  have h0 : g [2] = 0 := hg [[2]] 2 (1/1000000) [2] 0 (by with_unfolding_all decide)
  rw [h1] at h0
  exact one_ne_zero h0

/-- Counterexample to C4 as stated: a marginals input with a negative
target total (`[[-1]]`) is NOT rejected with an error before iterating —
the fit runs and returns a table (whose single cell is the negative
value). -/
theorem C4_counterexample :
    iterative_proportional_fitting [[-1]] 500 (1/1000000) = some [-1]
    ∧ (-1 : ℚ) < 0 := by
  exact ⟨by with_unfolding_all decide, by with_unfolding_all decide⟩

/-- C4 (amended): `iterative_proportional_fitting` performs no input
validation at all.  Whenever every axis has at least one category the fit
returns a table — negative targets included, with no InvalidMarginal
error; an axis with zero categories is also not rejected up front: it
makes the first sweep's empty `nanmax` reduction raise (no table is
returned), which happens during iteration, not as a pre-iteration
validation. -/
theorem C4_no_validation :
    (∀ (m : List (List ℚ)) (mi : Nat) (t : ℚ), (∀ ax ∈ m, ax ≠ []) →
      ∃ tab, iterative_proportional_fitting m mi t = some tab)
    ∧ (∀ (m : List (List ℚ)) (mi : Nat) (t : ℚ), [] ∈ m → 1 ≤ mi →
      iterative_proportional_fitting m mi t = none) := by
  constructor
  · intro m mi t hne
    obtain ⟨⟨tab, dev⟩, hout⟩ := ipfLoop_isSome m t hne mi
      (List.replicate (dimsOf m).prod 1) 0
    refine ⟨tab, ?_⟩
    unfold iterative_proportional_fitting ipfRun
    rw [hout]
    rfl
  · intro m mi t hmem hmi
    unfold iterative_proportional_fitting
    rw [ipfRun_none_of_nil m t mi hmem hmi]
    rfl

/-- Witness for C4 (amended): a negative-target input yields a table; an
input with an empty axis yields an uncaught error and no table. -/
theorem C4_witness :
    (∃ tab, iterative_proportional_fitting [[-2], [3]] 7 (1/2) = some tab)
    ∧ iterative_proportional_fitting [[], [1]] 3 1 = none :=
  ⟨C4_no_validation.1 [[-2], [3]] 7 (1/2) (by decide),
    C4_no_validation.2 [[], [1]] 3 1 (by decide) (by decide)⟩

/-- C5 (degenerate table): whenever the table's total cell weight is
exactly 0, `sample_from_table` aborts with an error — the zero total makes
the probability vector NaN, which `np.random.choice` rejects — and no
records at all are returned, regardless of the requested `n` and of the
randomness stream. -/
theorem C5_degenerate_table (dims : List Nat) (table : List ℚ)
    (cvs : List (String × List String)) (n : Nat) (draws : List Nat)
    (h : table.sum = 0) :
    sample_from_table dims table cvs n draws = none := by
  simp only [sample_from_table]
  rw [if_pos h]

/-- Witness for C5: an all-zero two-cell table is rejected. -/
theorem C5_witness :
    sample_from_table [2] [0, 0] [("a", ["x", "y"])] 5 [0, 1] = none :=
  C5_degenerate_table [2] [0, 0] [("a", ["x", "y"])] 5 [0, 1]
    (by with_unfolding_all decide)

/-- Counterexample to C6 as stated: a `categories_values` whose label
count (3) disagrees with the table's dimension (2) is NOT rejected with a
DimensionMismatch error before sampling — the call samples and returns a
record. -/
theorem C6_counterexample :
    sample_from_table [2] [1, 1] [("a", ["x", "y", "z"])] 1 [0]
      = some [[("a", "x")]]
    ∧ (["x", "y", "z"] : List String).length ≠ ([2] : List Nat).getD 0 0 := by
  exact ⟨by with_unfolding_all decide, by decide⟩

/-- C6 (amended): `sample_from_table` performs no shape validation.  For
any positive-total non-negative table, any label lists covering at least
each dimension's size (they may be longer — a shape mismatch), and even
fewer label axes than table axes (another shape mismatch), sampling
proceeds and returns one record per draw; mismatches are never rejected
up front. -/
theorem C6_no_shape_check (dims : List Nat) (table : List ℚ)
    (cvs : List (String × List String)) (n : Nat) (draws : List Nat)
    (hsum : table.sum ≠ 0)
    (hnn : ∀ x ∈ table, 0 ≤ x)
    (hax : cvs.length ≤ dims.length)
    (hlab : ∀ i, i < cvs.length → dims.getD i 0 ≤ ((cvs.getD i ("", [])).2).length)
    (hdr : ∀ d ∈ draws.take n, d < dims.prod) :
    ∃ rows, sample_from_table dims table cvs n draws = some rows
      ∧ rows.length = (draws.take n).length := by
  have htotpos : 0 < table.sum :=
    lt_of_le_of_ne (List.sum_nonneg hnn) (Ne.symm hsum)
  simp only [sample_from_table]
  rw [if_neg hsum]
  have hprobs : ¬ (table.map fun w => w / table.sum).any
      (fun p => decide (p < 0)) = true := by
    rw [List.any_eq_true]
    rintro ⟨p, hp, hdec⟩
    rcases List.mem_map.mp hp with ⟨w, hw, rfl⟩
    have hnonneg : 0 ≤ w / table.sum :=
      div_nonneg (hnn w hw) (le_of_lt htotpos)
    rw [decide_eq_true_eq] at hdec
    exact absurd hdec (not_lt.mpr hnonneg)
  rw [if_neg hprobs]
  have hidx : ¬ ((draws.take n).any fun d => decide (dims.prod ≤ d)) = true := by
    rw [List.any_eq_true]
    rintro ⟨d, hd, hdec⟩
    rw [decide_eq_true_eq] at hdec
    exact absurd hdec (not_le.mpr (hdr d hd))
  rw [if_neg hidx]
  exact decodeAll_isSome cvs dims hax hlab (draws.take n) hdr

/-- Witness for C6 (amended): a one-axis table of size 2 sampled with
three labels for the axis still returns two records. -/
theorem C6_witness :
    ∃ rows, sample_from_table [2] [1, 1] [("b", ["u", "v", "w"])] 2 [1, 0]
      = some rows ∧ rows.length = 2 := by
  obtain ⟨rows, h1, h2⟩ := C6_no_shape_check [2] [1, 1] [("b", ["u", "v", "w"])] 2 [1, 0]
    (by with_unfolding_all decide) (by with_unfolding_all decide)
    (by decide) (by decide) (by decide)
  exact ⟨rows, h1, by rw [h2]; decide⟩

/-- Counterexample to C7 as stated: for the input `[[5], [2, 3]]` the
single-category axis is processed first and its ratio in the first sweep
is `5/2`, not 1 — the step rescales the whole table, and the returned
one-sweep table `[2, 3]` shows the axis step was not a no-op. -/
theorem C7_counterexample :
    ratioOf [5] (margOf [1, 2] 0 (List.replicate 2 1)) = [5/2]
    ∧ ((5:ℚ)/2) ≠ 1
    ∧ (axisStep [1, 2] 0 [5] (List.replicate 2 1)).1 ≠ List.replicate 2 (1:ℚ)
    ∧ iterative_proportional_fitting [[5], [2, 3]] 1 (1/1000000) = some [2, 3] := by
  refine ⟨by with_unfolding_all decide, by with_unfolding_all decide,
    by with_unfolding_all decide, by with_unfolding_all decide⟩

/-- C7 (amended): an axis with exactly one category never causes an
error, and its scaling step is a no-op with ratio 1 exactly when the
table's grand total (the current marginal of that axis) already equals
the axis's target — the ratio is `target/grand-total` in general, so the
very first sweep can rescale the table through that axis. -/
theorem C7_single_category :
    (∀ (m : List (List ℚ)) (mi : Nat) (t : ℚ),
      (∀ ax ∈ m, ax ≠ []) → (∃ ax ∈ m, ax.length = 1) →
      ∃ tab, iterative_proportional_fitting m mi t = some tab)
    ∧ (∀ (dims : List Nat) (k : Nat) (t : ℚ) (data : List ℚ) (g : ℚ),
        margOf dims k data = [g] → g = t → g ≠ 0 →
        (axisStep dims k [t] data).1 = data) := by
  constructor
  · intro m mi t hne _
    obtain ⟨⟨tab, dev⟩, hout⟩ := ipfLoop_isSome m t hne mi
      (List.replicate (dimsOf m).prod 1) 0
    refine ⟨tab, ?_⟩
    unfold iterative_proportional_fitting ipfRun
    rw [hout]
    rfl
  · intro dims k t data g hmarg hgt hg0
    have hlen1 : dims.getD k 0 = 1 := by
      have hl := congrArg List.length hmarg
      unfold margOf at hl
      rw [List.length_map, List.length_range] at hl
      simpa using hl
    show scaleAxis dims k (ratioOf [t] (margOf dims k data)) data = data
    have hratio : ratioOf [t] [g] = [1] := by
      show [if g = 0 then 0 else t / g] = [1]
      rw [if_neg hg0, ← hgt, div_self hg0]
    apply list_eq_of_getD
    · exact length_scaleAxis _ _ _ _
    intro i hi
    have hi2 : i < data.length := by
      rw [← length_scaleAxis dims k (ratioOf [t] (margOf dims k data)) data]
      exact hi
    unfold scaleAxis
    rw [getD_range_map _ _ hi2]
    have hco : coordOf dims k i = 0 := by
      unfold coordOf
      rw [hlen1, Nat.mod_one]
    rw [hmarg, hratio, hco]
    show data.getD i 0 * (1:ℚ) = data.getD i 0
    rw [mul_one]

/-- Witness for C7 (amended): `[[5], [2, 3]]` fits without error, and the
single-category axis step on the table `[2, 3]` (grand total 5 = target)
leaves the table unchanged. -/
theorem C7_witness :
    (∃ tab, iterative_proportional_fitting [[5], [2, 3]] 3 (1/1000000) = some tab)
    ∧ (axisStep [1, 2] 0 [(5:ℚ)] [2, 3]).1 = [2, 3] := by
  refine ⟨C7_single_category.1 [[5], [2, 3]] 3 (1/1000000) (by decide)
    ⟨[5], by decide, by decide⟩, ?_⟩
  exact C7_single_category.2 [1, 2] 0 5 [2, 3] 5
    (by with_unfolding_all decide) rfl (by with_unfolding_all decide)

/-- C8 (positivity preservation): for non-negative targets, no table cell
is ever negative — the uniform initial table is non-negative, every
single axis scaling step maps a non-negative table to a non-negative one
(so every intermediate table of every sweep is non-negative), and every
table the fit returns is non-negative. -/
theorem C8_positivity :
    (∀ dims : List Nat, ∀ x ∈ List.replicate dims.prod (1:ℚ), 0 ≤ x)
    ∧ (∀ (dims : List Nat) (k : Nat) (target data : List ℚ),
        (∀ x ∈ data, 0 ≤ x) → (∀ x ∈ target, 0 ≤ x) →
        ∀ x ∈ (axisStep dims k target data).1, 0 ≤ x)
    ∧ (∀ (m : List (List ℚ)) (mi : Nat) (t : ℚ) (tab : List ℚ),
        (∀ ax ∈ m, ∀ x ∈ ax, 0 ≤ x) →
        iterative_proportional_fitting m mi t = some tab → ∀ x ∈ tab, 0 ≤ x) := by
  refine ⟨?_, ?_, ?_⟩
  · intro dims x hx
    rw [List.eq_of_mem_replicate hx]
    exact zero_le_one
  · intro dims k target data hd ht
    exact axisStep_nonneg dims k ht hd
  · intro m mi t tab hnn hfit
    unfold iterative_proportional_fitting at hfit
    cases hr : ipfRun m mi t with
    | none => rw [hr] at hfit; cases hfit
    | some p =>
      rw [hr] at hfit
      have htab : p.1 = tab := Option.some.inj hfit
      unfold ipfRun at hr
      have hres := ipfLoop_nonneg (dimsOf m) m t hnn mi
        (List.replicate (dimsOf m).prod 1) 0 p
        (fun x hx => by rw [List.eq_of_mem_replicate hx]; exact zero_le_one) hr
      rw [htab] at hres
      exact hres

/-- Witness for C8: the fit of `[[1, 2]]` returns `[1, 2]`, whose second
cell is non-negative by the positivity theorem. -/
theorem C8_witness :
    iterative_proportional_fitting [[1, 2]] 5 (1/1000000) = some [1, 2]
    ∧ 0 ≤ ([(1:ℚ), 2]).getD 1 0 := by
  have hfit : iterative_proportional_fitting [[1, 2]] 5 (1/1000000) = some [1, 2] := by
    with_unfolding_all decide
  refine ⟨hfit, ?_⟩
  have h := C8_positivity.2.2 [[1, 2]] 5 (1/1000000) [1, 2]
    (by with_unfolding_all decide) hfit
  have h2 : (0:ℚ) ≤ 2 := h 2 (by decide)
  have h3 : ([(1:ℚ), 2]).getD 1 0 = 2 := rfl
  rw [h3]
  exact h2

/-- C9 (determinism): the fit consults no randomness and no hidden state —
it is a mathematical function of the marginals, the axis order (already
encoded in the order of the marginal list), `max_iterations` and
`tolerance` alone, so two runs on equal inputs return bit-for-bit equal
tables.  (The embedding of `iterative_proportional_fitting` required no
randomness source argument, unlike the sampler's `draws`.) -/
theorem C9_determinism (m1 m2 : List (List ℚ)) (i1 i2 : Nat) (t1 t2 : ℚ)
    (hm : m1 = m2) (hi : i1 = i2) (ht : t1 = t2) :
    iterative_proportional_fitting m1 i1 t1
      = iterative_proportional_fitting m2 i2 t2 := by
  rw [hm, hi, ht]

/-- Witness for C9: two identical runs agree. -/
theorem C9_witness :
    iterative_proportional_fitting [[60, 40], [70, 30]] 500 (1/1000000)
      = iterative_proportional_fitting [[60, 40], [70, 30]] 500 (1/1000000) :=
  C9_determinism [[60, 40], [70, 30]] [[60, 40], [70, 30]] 500 500
    (1/1000000) (1/1000000) rfl rfl rfl

/-- C10 (no mutation of inputs): neither operation writes into its
arguments.  In the source every array the fitter touches is freshly
allocated (`.astype(float)` copies the marginals, `np.ones` allocates the
table, `table * ratio_reshaped` allocates and rebinds) and the sampler
only reads `table` and `categories_values`; the call-level wrappers
therefore return the argument state unchanged, and a repeat call on the
post-call marginals behaves identically. -/
theorem C10_no_mutation :
    (∀ (m : List (List ℚ)) (mi : Nat) (t : ℚ), (fitCall m mi t).2 = m)
    ∧ (∀ (dims : List Nat) (tab : List ℚ) (cvs : List (String × List String))
        (n : Nat) (dr : List Nat), (sampleCall dims tab cvs n dr).2 = (tab, cvs))
    ∧ (∀ (m : List (List ℚ)) (mi : Nat) (t : ℚ),
        iterative_proportional_fitting (fitCall m mi t).2 mi t
          = iterative_proportional_fitting m mi t) :=
  ⟨fun _ _ _ => rfl, fun _ _ _ _ _ => rfl, fun _ _ _ => rfl⟩
